import Mathlib

/-!
# job-alert-chennai: harvest, de-duplicate, filter, notify once

A shallow embedding of `src/job-alert.js`.

Modelling conventions.

* A JavaScript string is the list of its characters (`Str`).  All pattern
  characters and keywords of the program are ASCII (plus `₹`, a single UTF-16
  unit), so working with code points instead of UTF-16 units changes nothing.
* `toLowerCase` maps `A`..`Z` to `a`..`z` and leaves every other character
  alone.  The only non-ASCII characters whose JavaScript lower-casing contains
  an ASCII letter are U+212A (to `k`) and U+0130 (to `i` followed by U+0307);
  no keyword contains `k`, and an `i` followed by U+0307 can only end a
  keyword occurrence, while no keyword ends in `i`.  So `includes` of a
  keyword gives the same answer under both lower-casings.
* `parseInt(digits, 10)` is the Number value of the integer the digits denote:
  the integer itself below `2^53`, its correctly rounded double above, and
  `Infinity` from `2^1024` on (`toNumber`).
* A regular expression is a value of `Re`, run by a backtracking matcher that
  returns every way to match in the order a JavaScript engine tries them.
* The ledger path is a text (or no file) with a read and a write permission.
  The text is either not JSON or the JSON text of a value, represented by the
  value `JSON.parse` gives for it: an array, a string, or a value without an
  `includes` method.  Array elements are strings and `null`s, the only ones
  `writeLog` produces; other elements are never equal to a link and are left
  out.  A write that fails leaves the file as it was; `mkdirSync` is taken to
  succeed.
* `src/index.js` runs the same sequence through modules that are not part of
  the sources at hand (`utils/logger.js`, `utils/filter.js`, the notifiers), so
  the run is embedded from `src/job-alert.js`, which is self-contained.
* Each notifier call either resolves or rejects; the three outcomes are an
  input of the run (`Outcomes`).
-/

namespace JobAlert

/-! ## Values -/

/-- A JavaScript string. -/
abbrev Str := List Char

/-- The values a `link` or a ledger element takes: `attr("href")` gives a string
or `undefined`, the scrapers use `null` for a missing relative link, and
`JSON.parse` gives strings and `null`. -/
inductive JsVal where
  | undefined
  | null
  | str (s : Str)
  deriving DecidableEq, Repr

/-- JavaScript truthiness of a string: non-empty. -/
def strTruthy (s : Str) : Bool := !s.isEmpty

/-- JavaScript truthiness of a `JsVal`. -/
def JsVal.truthy : JsVal → Bool
  | .str s => strTruthy s
  | _ => false

/-- Truthiness of an optional string field (`none` is `undefined`). -/
def optTruthy : Option Str → Bool
  | some s => strTruthy s
  | none => false

/-- A posting object as the scrapers build it, with the two optional fields
`filterJobs` looks at. -/
structure Posting where
  title : Str
  company : Str
  link : JsVal
  snippet : Str
  source : Str
  experience : Option Str
  salary : Option Str
  deriving DecidableEq, Repr

/-! ## Configuration -/

/-- The constant `KEYWORDS`. -/
def KEYWORDS : List Str :=
  ["react".toList, "frontend".toList, "javascript".toList, "html".toList,
   "css".toList, "tailwind".toList, "bootstrap".toList]

/-- The constant `MIN_EXPERIENCE_YEARS`. -/
def MIN_EXPERIENCE_YEARS : Nat := 2

/-- The constant `SALARY_MIN`. -/
def SALARY_MIN : Nat := 0

/-! ## Helpers -/

/-- `String.prototype.toLowerCase`. -/
def toLowerCase (s : Str) : Str := s.map Char.toLower

/-- `t.includes(k)`: `k` occurs in `t` as a contiguous block. -/
def includes : Str → Str → Bool
  | [], k => k.isPrefixOf []
  | c :: t, k => k.isPrefixOf (c :: t) || includes t k

/-- `containsKeyword(text)`. -/
def containsKeyword (text : Str) : Bool :=
  if !strTruthy text then false
  else
    let t := toLowerCase text
    KEYWORDS.any fun k => includes t (toLowerCase k)

/-! ## Scrapers -/

/-- What a scraper reads off one result element: the `safeText` of title,
company and snippet, and the `href` attribute (`none` is `undefined`). -/
structure RawEl where
  title : Str
  company : Str
  href : Option Str
  snippet : Str
  deriving DecidableEq, Repr

/-- `rel ? (base + rel) : null`. -/
def relLink (base : Str) (rel : Option Str) : JsVal :=
  if optTruthy rel then .str (base ++ rel.getD []) else .null

/-- A link taken straight from `attr("href")`. -/
def attrLink (rel : Option Str) : JsVal :=
  match rel with
  | some s => .str s
  | none => .undefined

/-- The body of every scraper's `each` callback: push the posting when
`title && company && link && containsKeyword(title + " " + snippet)`. -/
def scrapeEl (mkLink : Option Str → JsVal) (source : Str) (el : RawEl) : Option Posting :=
  let link := mkLink el.href
  if strTruthy el.title && strTruthy el.company && link.truthy
      && containsKeyword (el.title ++ " ".toList ++ el.snippet) then
    some { title := el.title, company := el.company, link := link, snippet := el.snippet,
           source := source, experience := none, salary := none }
  else none

/-- A scraper: `none` is a page that could not be fetched or parsed (the
`catch` returns `[]`), `some els` the result elements of the page in order. -/
def scraper (mkLink : Option Str → JsVal) (source : Str) (page : Option (List RawEl)) :
    List Posting :=
  match page with
  | none => []
  | some els => els.filterMap (scrapeEl mkLink source)

/-- `scrapeIndeed`. -/
def scrapeIndeed := scraper (relLink "https://in.indeed.com".toList) "Indeed".toList
/-- `scrapeNaukri`. -/
def scrapeNaukri := scraper attrLink "Naukri".toList
/-- `scrapeCutshort`. -/
def scrapeCutshort := scraper (relLink "https://cutshort.io".toList) "Cutshort".toList
/-- `scrapeGlassdoor`. -/
def scrapeGlassdoor := scraper (relLink "https://www.glassdoor.co.in".toList) "Glassdoor".toList
/-- `scrapeMonster`. -/
def scrapeMonster := scraper attrLink "Monster".toList
/-- `scrapeLinkedInSimple`. -/
def scrapeLinkedInSimple := scraper attrLink "LinkedIn".toList

/-- The six result pages of one run. -/
structure Pages where
  indeed : Option (List RawEl)
  naukri : Option (List RawEl)
  cutshort : Option (List RawEl)
  glassdoor : Option (List RawEl)
  monster : Option (List RawEl)
  linkedin : Option (List RawEl)

/-- The array `all` of `fetchAll` after its first loop. -/
def collectAll (p : Pages) : List Posting :=
  scrapeIndeed p.indeed ++ scrapeNaukri p.naukri ++ scrapeCutshort p.cutshort
    ++ scrapeGlassdoor p.glassdoor ++ scrapeMonster p.monster ++ scrapeLinkedInSimple p.linkedin

/-- The de-duplication key `j.link || (j.title + "|" + j.company)`. -/
def jobId (j : Posting) : Str :=
  match j.link with
  | .str s => if strTruthy s then s else j.title ++ "|".toList ++ j.company
  | _ => j.title ++ "|".toList ++ j.company

/-- The second loop of `fetchAll`, with its two accumulators `seen` and `dedup`. -/
def dedupLoop : List Posting → List Str → List Posting → List Posting
  | [], _, dedup => dedup
  | j :: rest, seen, dedup =>
    if !seen.contains (jobId j) then dedupLoop rest (seen ++ [jobId j]) (dedup ++ [j])
    else dedupLoop rest seen dedup

/-- The de-duplication of `fetchAll` applied to the collected array. -/
def dedupe (all : List Posting) : List Posting := dedupLoop all [] []

/-- `fetchAll`. -/
def fetchAll (p : Pages) : List Posting := dedupe (collectAll p)

/-- The shape of a posting a scraper pushes: non-empty title, company and link,
no experience or salary field, and a keyword in `title + " " + snippet`. -/
def emitted (j : Posting) : Bool :=
  strTruthy j.title && strTruthy j.company && j.link.truthy && j.experience.isNone
    && j.salary.isNone && containsKeyword (j.title ++ " ".toList ++ j.snippet)

/-! ## Regular expressions -/

/-- The regular expressions used by the program. -/
inductive Re where
  | chr (p : Char → Bool)
  | many (p : Char → Bool)
  | opt (r : Re)
  | alt (a b : Re)
  | seq (a b : Re)
  | group (i : Nat) (r : Re)

/-- Greedy `p*`: the remainders after consuming `n, n-1, .., 0` characters. -/
def manyRun (p : Char → Bool) : Str → List Str
  | [] => [[]]
  | c :: t => if p c then manyRun p t ++ [c :: t] else [c :: t]

/-- All matches of `r` at the start of the input, in backtracking order; a
state is the remaining input and the captures made so far. -/
def Re.run : Re → Str × List (Nat × Str) → List (Str × List (Nat × Str))
  | .chr p, (s, cs) =>
    match s with
    | c :: t => if p c then [(t, cs)] else []
    | [] => []
  | .many p, (s, cs) => (manyRun p s).map fun t => (t, cs)
  | .opt r, st => r.run st ++ [st]
  | .alt a b, st => a.run st ++ b.run st
  | .seq a b, st => (a.run st).flatMap b.run
  | .group i r, (s, cs) =>
    (r.run (s, cs)).map fun st => (st.1, st.2 ++ [(i, s.take (s.length - st.1.length))])

/-- `text.match(r)` for a pattern without the `g` flag: the captures of the
first match at the leftmost position that has one. -/
def Re.exec (r : Re) : Str → Option (List (Nat × Str))
  | [] => (r.run ([], [])).head?.map Prod.snd
  | c :: t =>
    match (r.run (c :: t, [])).head? with
    | some st => some st.2
    | none => r.exec t

/-- The class `\d`. -/
def isDigit (c : Char) : Bool := decide (48 ≤ c.toNat) && decide (c.toNat ≤ 57)

/-- The class `\s`. -/
def isSpace (c : Char) : Bool :=
  c.toNat == 9 || c.toNat == 10 || c.toNat == 11 || c.toNat == 12 || c.toNat == 13
    || c.toNat == 32 || c.toNat == 160 || c.toNat == 5760
    || (decide (8192 ≤ c.toNat) && decide (c.toNat ≤ 8202))
    || c.toNat == 8232 || c.toNat == 8233 || c.toNat == 8239 || c.toNat == 8287
    || c.toNat == 12288 || c.toNat == 65279

/-- A literal letter under the `i` flag. -/
def ci (l : Char) : Re := .chr fun c => c.toLower == l

/-- A literal character. -/
def lit (l : Char) : Re := .chr fun c => c == l

/-- The pattern `\d+`. -/
def digits1 : Re := .seq (.chr isDigit) (.many isDigit)

/-- The pattern `years?` under the `i` flag. -/
def yearsRe : Re := .seq (ci 'y') (.seq (ci 'e') (.seq (ci 'a') (.seq (ci 'r') (.opt (ci 's')))))

/-- What follows the first group in the first pattern of `parseExperience`:
`\+?\s*(?:-|\sto\s)?\s*(\d+)?\s*years?` under the `i` flag. -/
def rangeTailRe : Re :=
  .seq (.opt (lit '+'))
   (.seq (.many isSpace)
    (.seq (.opt (.alt (lit '-') (.seq (.chr isSpace) (.seq (ci 't') (.seq (ci 'o') (.chr isSpace))))))
     (.seq (.many isSpace)
      (.seq (.opt (.group 2 digits1))
       (.seq (.many isSpace) yearsRe)))))

/-- The first pattern of `parseExperience`:
`/(\d+)\+?\s*(?:-|\sto\s)?\s*(\d+)?\s*years?/i`. -/
def rangeRe : Re := .seq (.group 1 digits1) rangeTailRe

/-- What follows the group in the second pattern of `parseExperience`: `\s*years?`. -/
def singleTailRe : Re := .seq (.many isSpace) yearsRe

/-- The second pattern of `parseExperience`: `/(\d+)\s*years?/i`. -/
def singleRe : Re := .seq (.group 1 digits1) singleTailRe

/-- The pattern of the salary check: `/(\d{3,})/`. -/
def salaryRe : Re :=
  .group 1 (.seq (.chr isDigit) (.seq (.chr isDigit) (.seq (.chr isDigit) (.many isDigit))))

/-- The integer a string of decimal digits denotes. -/
def digitsValue (s : Str) : Nat := s.foldl (fun n c => 10 * n + (c.toNat - 48)) 0

/-- A Number that `parseInt` gives for a string of digits: a non-negative
integer that a double holds, or `Infinity`. -/
inductive JsNum where
  | fin (n : Nat)
  | inf
  deriving DecidableEq, Repr

/-- The Number value of a non-negative integer: the integer itself below
`2^53`; above, the integer rounded to 53 significant bits, to the nearest and
on a tie to the even one; `Infinity` when that reaches `2^1024`, that is, when
its binary logarithm reaches 1024. -/
def toNumber (n : Nat) : JsNum :=
  if n < 2 ^ 53 then .fin n
  else
    let e := Nat.log2 n - 52
    let q := n / 2 ^ e
    let r := n % 2 ^ e
    let up := decide (2 ^ (e - 1) < r) || (decide (r = 2 ^ (e - 1)) && decide (q % 2 = 1))
    let m := (if up then q + 1 else q) * 2 ^ e
    if Nat.log2 m < 1024 then .fin m else .inf

/-- `parseInt(s, 10)` on a string of decimal digits. -/
def parseInt (s : Str) : JsNum := toNumber (digitsValue s)

/-- The comparison `x < k` of a parsed Number with an integer constant. -/
def JsNum.lt (x : JsNum) (k : Nat) : Bool :=
  match x with
  | .fin n => decide (n < k)
  | .inf => false

/-- The capture `m[i]` of a match result. -/
def capture (m : List (Nat × Str)) (i : Nat) : Str := (m.lookup i).getD []

/-! ## Filter -/

/-- `parseExperience(text)`; `none` is `null`. -/
def parseExperience (text : Option Str) : Option JsNum :=
  if !optTruthy text then none
  else
    match rangeRe.exec (text.getD []) with
    | some m => some (parseInt (capture m 1))
    | none =>
      match singleRe.exec (text.getD []) with
      | some single => some (parseInt (capture single 1))
      | none => none

/-- The replacement `.replace(/[₹,]/g,"")`. -/
def stripSalary (s : Str) : Str := s.filter fun c => !(c == '₹' || c == ',')

/-- The stripped salary text and its match:
`(job.salary || "").replace(/[₹,]/g,"").match(/(\d{3,})/)`. -/
def salaryMatch (salary : Option Str) : Option (List (Nat × Str)) :=
  salaryRe.exec (stripSalary (if optTruthy salary then salary.getD [] else []))

/-- The experience test of the filter callback for a floor `minExp`: `true`
when the callback returns `false` at that test. -/
def experienceRejects (minExp : Nat) (job : Posting) : Bool :=
  if optTruthy job.experience then
    match parseExperience job.experience with
    | some exp => exp.lt minExp
    | none => false
  else false

/-- The salary test of the filter callback for a floor `salaryMin`: `true`
when the callback returns `false` at that test. -/
def salaryRejects (salaryMin : Nat) (job : Posting) : Bool :=
  if optTruthy job.salary then
    match salaryMatch job.salary with
    | some m => (parseInt (capture m 1)).lt salaryMin
    | none => false
  else false

/-- The callback of `filterJobs`, with the two floors as parameters. -/
def keepJob (minExp salaryMin : Nat) (job : Posting) : Bool :=
  let big := toLowerCase (job.title ++ " ".toList ++ job.snippet ++ " ".toList ++ job.company)
  if !containsKeyword big then false
  else if experienceRejects minExp job then false
  else if salaryRejects salaryMin job then false
  else true

/-- `filterJobs(jobs)`. -/
def filterJobs (jobs : List Posting) : List Posting :=
  jobs.filter (keepJob MIN_EXPERIENCE_YEARS SALARY_MIN)

/-- Spec wording of the experience pattern: digits immediately followed by an
optional "+" and the word "year" or "years" (blanks before the word allowed, as
in "3+ years"). -/
def specYearsRe : Re :=
  .seq (.group 1 digits1) (.seq (.opt (lit '+')) (.seq (.many isSpace) yearsRe))

/-- Spec wording of `parseExperience`: the digits of the first occurrence of
the spec's pattern. -/
def specParseExperience (text : Str) : Option JsNum :=
  (specYearsRe.exec text).map fun m => parseInt (capture m 1)

/-- Whether a text begins with three digits. -/
def startsWith3Digits : Str → Bool
  | a :: b :: c :: _ => isDigit a && isDigit b && isDigit c
  | _ => false

/-- Whether a text has three digits in a row somewhere. -/
def hasDigitRun3 : Str → Bool
  | [] => false
  | a :: t => startsWith3Digits (a :: t) || hasDigitRun3 t

/-! ## Ledger -/

/-- What `JSON.parse` gives for the ledger text: an array (of strings and
`null`s), a string, or a value without an `includes` method (`null`, a boolean,
a number, an object). -/
inductive Json where
  | array (xs : List JsVal)
  | string (s : Str)
  | other
  deriving DecidableEq, Repr

/-- The text of the ledger file: not JSON, or the JSON text of a value. -/
inductive Content where
  | notJson
  | json (v : Json)
  deriving DecidableEq, Repr

/-- The ledger path `./data/sent-links.json` as the file system presents it:
the text of the file (`none` when there is no file), whether `readFileSync`
can read the file, and whether `writeFileSync` can write it (creating it when
there is none).  A write does not change the two permissions. -/
structure LogFile where
  content : Option Content
  readable : Bool
  writable : Bool
  deriving DecidableEq, Repr

/-- The exceptions of the ledger steps. -/
inductive JsError where
  | noSuchFile
  | readFailed
  | syntaxError
  | writeFailed
  | typeError
  deriving DecidableEq, Repr

/-- `fs.readFileSync(LOG_PATH, "utf8")`. -/
def readFileSync (f : LogFile) : Except JsError Content :=
  match f.content with
  | none => .error .noSuchFile
  | some c => if f.readable then .ok c else .error .readFailed

/-- `JSON.parse` on the ledger text. -/
def jsonParse : Content → Except JsError Json
  | .notJson => .error .syntaxError
  | .json v => .ok v

/-- `readLog()`: `try { return JSON.parse(readFileSync(..)) } catch(e) { return [] }`. -/
def readLog (f : LogFile) : Except JsError Json :=
  match readFileSync f >>= jsonParse with
  | .ok v => .ok v
  | .error _ => .ok (.array [])

/-- `fs.writeFileSync(LOG_PATH, text)`: the file afterwards, or the exception
of a write that cannot open the file (which is then left as it was). -/
def writeFileSync (f : LogFile) (text : Content) : Except JsError LogFile :=
  if f.writable then .ok { f with content := some text } else .error .writeFailed

/-- `Set.prototype.add` on the insertion-ordered elements of a set. -/
def setAdd (s : List JsVal) (x : JsVal) : List JsVal := if s.contains x then s else s ++ [x]

/-- `Array.from(new Set(list))`. -/
def arrayFromSet (list : List JsVal) : List JsVal := list.foldl setAdd []

/-- What `JSON.stringify` writes for an array element and `JSON.parse` reads
back: `undefined` becomes `null`. -/
def jsonElem : JsVal → JsVal
  | .undefined => .null
  | v => v

/-- `writeLog(list)` for the values `list` hands to `new Set`: the file after
the write, or the exception of `writeFileSync`. -/
def writeLog (f : LogFile) (list : List JsVal) : Except JsError LogFile :=
  writeFileSync f (.json (.array ((arrayFromSet list).map jsonElem)))

/-- `String(v)` for a link. -/
def JsVal.toStr : JsVal → Str
  | .undefined => "undefined".toList
  | .null => "null".toList
  | .str s => s

/-- `sent.includes(link)`: `Array.prototype.includes` on an array,
`String.prototype.includes` on a string, a `TypeError` otherwise. -/
def sentIncludes (sent : Json) (link : JsVal) : Except JsError Bool :=
  match sent with
  | .array xs => .ok (xs.contains link)
  | .string s => .ok (includes s link.toStr)
  | .other => .error .typeError

/-- `filtered.filter(j => !sent.includes(j.link))`; the callback runs once for
each posting, so an exception arises at the first posting. -/
def excludeSent (sent : Json) : List Posting → Except JsError (List Posting)
  | [] => .ok []
  | j :: rest =>
    match sentIncludes sent j.link with
    | .error e => .error e
    | .ok inc =>
      match excludeSent sent rest with
      | .error e => .error e
      | .ok kept => .ok (if inc then kept else j :: kept)

/-- What `Array.prototype.join` writes for an element: nothing for `undefined`
and `null`. -/
def joinPart : JsVal → Str
  | .str s => s
  | _ => []

/-- `String(links)` for an array of links: the elements joined by commas. -/
def joinLinks : List JsVal → Str
  | [] => []
  | [v] => joinPart v
  | v :: w :: rest => joinPart v ++ ",".toList ++ joinLinks (w :: rest)

/-- The values `new Set` takes from `sent.concat(links)`: the elements of the
concatenated array when `sent` is an array, the characters of the concatenated
string when `sent` is a string. -/
def concatLinks (sent : Json) (links : List JsVal) : List JsVal :=
  match sent with
  | .array xs => xs ++ links
  | .string s => (s ++ joinLinks links).map fun c => .str [c]
  | .other => []

/-! ## Main -/

/-- The three notifiers. -/
inductive Channel where
  | email
  | telegram
  | whatsapp
  deriving DecidableEq, Repr

/-- Whether each notifier call resolves (`true`) or rejects (`false`). -/
structure Outcomes where
  email : Bool
  telegram : Bool
  whatsapp : Bool
  deriving DecidableEq, Repr

/-- How the run ends: at the early `return`, after the ledger write, or with
the promise of the main function rejected. -/
inductive Status where
  | noNewJobs
  | logged
  | rejected
  deriving DecidableEq, Repr

/-- What a run did: the notifier calls made with their argument, in order, the
ledger file afterwards, and how it ended. -/
structure Run where
  calls : List (Channel × List Posting)
  file : LogFile
  status : Status
  deriving DecidableEq, Repr

/-- The main function from `readLog()` on, given `filtered`. -/
def mainAfterFilter (filtered : List Posting) (file : LogFile) (o : Outcomes) : Run :=
  match readLog file with
  | .error _ => { calls := [], file := file, status := .rejected }
  | .ok sent =>
    match excludeSent sent filtered with
    | .error _ => { calls := [], file := file, status := .rejected }
    | .ok toSend =>
      if toSend.length = 0 then { calls := [], file := file, status := .noNewJobs }
      else if !o.email then
        { calls := [(.email, toSend)], file := file, status := .rejected }
      else if !o.telegram then
        { calls := [(.email, toSend), (.telegram, toSend)], file := file, status := .rejected }
      else if !o.whatsapp then
        { calls := [(.email, toSend), (.telegram, toSend), (.whatsapp, toSend)], file := file,
          status := .rejected }
      else
        match writeLog file (concatLinks sent (toSend.map fun j => j.link)) with
        | .ok written =>
          { calls := [(.email, toSend), (.telegram, toSend), (.whatsapp, toSend)],
            file := written, status := .logged }
        | .error _ =>
          { calls := [(.email, toSend), (.telegram, toSend), (.whatsapp, toSend)],
            file := file, status := .rejected }

/-- The main function of `job-alert.js`. -/
def mainRun (p : Pages) (file : LogFile) (o : Outcomes) : Run :=
  mainAfterFilter (filterJobs (fetchAll p)) file o

/-- A writable, readable path with no file yet. -/
def noFile : LogFile := { content := none, readable := true, writable := true }

/-- A readable, writable file with the given text. -/
def fileWith (c : Content) : LogFile := { content := some c, readable := true, writable := true }

/-- Every notifier resolves. -/
def allResolve : Outcomes := { email := true, telegram := true, whatsapp := true }

/-! ## Sample data -/

/-- A posting as `scrapeIndeed` pushes it. -/
def reactJob : Posting :=
  { title := "React Developer".toList, company := "Acme".toList,
    link := .str "https://in.indeed.com/viewjob?jk=1".toList, snippet := "Build UI".toList,
    source := "Indeed".toList, experience := none, salary := none }

/-- A run in which only the Indeed page loads, with the one result element
behind `reactJob`. -/
def onePage : Pages :=
  { indeed := some [{ title := "React Developer".toList, company := "Acme".toList,
                      href := some "/viewjob?jk=1".toList, snippet := "Build UI".toList }],
    naukri := none, cutshort := none, glassdoor := none, monster := none, linkedin := none }

/-- The sample posting with an experience text. -/
def withExperience (text : String) : Posting := { reactJob with experience := some text.toList }

/-- The sample posting with a salary text. -/
def withSalary (text : String) : Posting := { reactJob with salary := some text.toList }

/-! ## The de-duplication of `fetchAll` -/

theorem dedupLoop_acc (all : List Posting) (seen : List Str) (dedup : List Posting) :
    dedupLoop all seen dedup = dedup ++ dedupLoop all seen [] := by
  induction all generalizing seen dedup with
  | nil => simp [dedupLoop]
  | cons j rest ih =>
    simp only [dedupLoop]
    split
    · rw [ih (seen ++ [jobId j]) (dedup ++ [j]), ih (seen ++ [jobId j]) ([] ++ [j])]
      simp
    · exact ih seen dedup

theorem dedupLoop_cons_new (j : Posting) (rest : List Posting) (seen : List Str)
    (h : jobId j ∉ seen) :
    dedupLoop (j :: rest) seen [] = j :: dedupLoop rest (seen ++ [jobId j]) [] := by
  have hc : seen.contains (jobId j) = false := by simpa using h
  simp only [dedupLoop, hc]
  rw [dedupLoop_acc]
  simp

theorem dedupLoop_cons_seen (j : Posting) (rest : List Posting) (seen : List Str)
    (h : jobId j ∈ seen) :
    dedupLoop (j :: rest) seen [] = dedupLoop rest seen [] := by
  have hc : seen.contains (jobId j) = true := by simpa using h
  simp only [dedupLoop, hc]
  rfl

theorem dedupLoop_sublist (all : List Posting) (seen : List Str) :
    List.Sublist (dedupLoop all seen []) all := by
  induction all generalizing seen with
  | nil => simp [dedupLoop]
  | cons j rest ih =>
    by_cases h : jobId j ∈ seen
    · rw [dedupLoop_cons_seen j rest seen h]
      exact (ih seen).trans (List.sublist_cons_self j rest)
    · rw [dedupLoop_cons_new j rest seen h]
      exact (ih _).cons₂ j

theorem dedupLoop_not_seen (all : List Posting) (seen : List Str) :
    ∀ j ∈ dedupLoop all seen [], jobId j ∉ seen := by
  induction all generalizing seen with
  | nil => simp [dedupLoop]
  | cons j rest ih =>
    by_cases h : jobId j ∈ seen
    · rw [dedupLoop_cons_seen j rest seen h]
      exact ih seen
    · rw [dedupLoop_cons_new j rest seen h]
      intro k hk
      rcases List.mem_cons.1 hk with rfl | hk
      · exact h
      · intro hs
        exact ih _ k hk (List.mem_append_left _ hs)

theorem dedupLoop_nodup (all : List Posting) (seen : List Str) :
    ((dedupLoop all seen []).map jobId).Nodup := by
  induction all generalizing seen with
  | nil => simp [dedupLoop]
  | cons j rest ih =>
    by_cases h : jobId j ∈ seen
    · rw [dedupLoop_cons_seen j rest seen h]
      exact ih seen
    · rw [dedupLoop_cons_new j rest seen h, List.map_cons, List.nodup_cons]
      refine ⟨?_, ih _⟩
      intro hm
      obtain ⟨k, hk, hkj⟩ := List.mem_map.1 hm
      exact dedupLoop_not_seen rest _ k hk (by simp [hkj])

theorem dedupLoop_covers (all : List Posting) (seen : List Str) :
    ∀ j ∈ all, jobId j ∉ seen → jobId j ∈ (dedupLoop all seen []).map jobId := by
  induction all generalizing seen with
  | nil => simp
  | cons j rest ih =>
    intro k hk hks
    by_cases h : jobId j ∈ seen
    · rw [dedupLoop_cons_seen j rest seen h]
      rcases List.mem_cons.1 hk with rfl | hk
      · exact absurd h hks
      · exact ih seen k hk hks
    · rw [dedupLoop_cons_new j rest seen h, List.map_cons]
      by_cases hkj : jobId k = jobId j
      · simp [hkj]
      · rcases List.mem_cons.1 hk with rfl | hk
        · exact absurd rfl hkj
        · refine List.mem_cons_of_mem _ (ih _ k hk ?_)
          simp [hks, hkj]

theorem dedupLoop_find (all : List Posting) (seen : List Str) (i : Str) (hi : i ∉ seen) :
    (dedupLoop all seen []).find? (fun k => jobId k == i)
      = all.find? (fun k => jobId k == i) := by
  induction all generalizing seen with
  | nil => simp [dedupLoop]
  | cons j rest ih =>
    by_cases h : jobId j ∈ seen
    · rw [dedupLoop_cons_seen j rest seen h]
      have hne : (jobId j == i) = false := by
        simp only [beq_eq_false_iff_ne, ne_eq]
        intro he
        exact hi (he ▸ h)
      rw [List.find?_cons, hne]
      exact ih seen hi
    · rw [dedupLoop_cons_new j rest seen h]
      by_cases hji : jobId j = i
      · simp [List.find?_cons, hji]
      · have hne : (jobId j == i) = false := by simpa using hji
        rw [List.find?_cons, hne, List.find?_cons, hne]
        apply ih
        simp only [List.mem_append, List.mem_singleton, not_or]
        exact ⟨hi, fun he => hji he.symm⟩

theorem filter_key_length_one {α β : Type} [DecidableEq β] (f : α → β) (l : List α)
    (hn : (l.map f).Nodup) (a : α) (ha : a ∈ l) :
    (l.filter (fun k => decide (f k = f a))).length = 1 := by
  induction l with
  | nil => simp at ha
  | cons x xs ih =>
    rw [List.map_cons, List.nodup_cons] at hn
    by_cases hx : f x = f a
    · have hnone : xs.filter (fun k => decide (f k = f a)) = [] := by
        rw [List.filter_eq_nil_iff]
        intro k hk hka
        have hka2 : f k = f a := by simpa using hka
        exact hn.1 (List.mem_map.2 ⟨k, hk, hka2.trans hx.symm⟩)
      simp [List.filter_cons, hx, hnone]
    · have hax : a ∈ xs := by
        rcases List.mem_cons.1 ha with rfl | h
        · exact absurd rfl hx
        · exact h
      simp [List.filter_cons, hx, ih hn.2 hax]

theorem dedupLoop_snoc (all : List Posting) (j : Posting) (seen : List Str) :
    dedupLoop (all ++ [j]) seen []
      = if jobId j ∈ seen ∨ jobId j ∈ all.map jobId then dedupLoop all seen []
        else dedupLoop all seen [] ++ [j] := by
  induction all generalizing seen with
  | nil =>
    by_cases h : jobId j ∈ seen
    · rw [List.nil_append, dedupLoop_cons_seen j [] seen h, if_pos (Or.inl h)]
    · rw [List.nil_append, dedupLoop_cons_new j [] seen h, if_neg (by simpa using h)]
      rfl
  | cons a rest ih =>
    rw [List.cons_append]
    by_cases h : jobId a ∈ seen
    · rw [dedupLoop_cons_seen a _ seen h, dedupLoop_cons_seen a rest seen h, ih seen]
      have hc : (jobId j ∈ seen ∨ jobId j ∈ (a :: rest).map jobId)
          ↔ (jobId j ∈ seen ∨ jobId j ∈ rest.map jobId) := by
        rw [List.map_cons, List.mem_cons]
        constructor
        · rintro (h1 | h1 | h1)
          · exact Or.inl h1
          · exact Or.inl (h1 ▸ h)
          · exact Or.inr h1
        · rintro (h1 | h1)
          · exact Or.inl h1
          · exact Or.inr (Or.inr h1)
      by_cases hj : jobId j ∈ seen ∨ jobId j ∈ rest.map jobId
      · rw [if_pos hj, if_pos (hc.2 hj)]
      · rw [if_neg hj, if_neg (fun h1 => hj (hc.1 h1))]
    · rw [dedupLoop_cons_new a _ seen h, dedupLoop_cons_new a rest seen h, ih (seen ++ [jobId a])]
      have hc : (jobId j ∈ seen ∨ jobId j ∈ (a :: rest).map jobId)
          ↔ (jobId j ∈ seen ++ [jobId a] ∨ jobId j ∈ rest.map jobId) := by
        rw [List.map_cons, List.mem_cons, List.mem_append, List.mem_singleton]
        constructor
        · rintro (h1 | h1 | h1)
          · exact Or.inl (Or.inl h1)
          · exact Or.inl (Or.inr h1)
          · exact Or.inr h1
        · rintro ((h1 | h1) | h1)
          · exact Or.inl h1
          · exact Or.inr (Or.inl h1)
          · exact Or.inr (Or.inr h1)
      by_cases hj : jobId j ∈ seen ++ [jobId a] ∨ jobId j ∈ rest.map jobId
      · rw [if_pos hj, if_pos (hc.2 hj)]
      · rw [if_neg hj, if_neg (fun h1 => hj (hc.1 h1))]
        rfl

theorem dedupe_snoc (all : List Posting) (j : Posting) :
    dedupe (all ++ [j])
      = if jobId j ∈ all.map jobId then dedupe all else dedupe all ++ [j] := by
  unfold dedupe
  rw [dedupLoop_snoc]
  simp

theorem findIdx_append_of_mem (all : List Posting) (j k : Posting) (hk : k ∈ all) :
    (all ++ [j]).findIdx (fun x => jobId x == jobId k)
      = all.findIdx (fun x => jobId x == jobId k) := by
  have hlt : all.findIdx (fun x => jobId x == jobId k) < all.length :=
    List.findIdx_lt_length_of_exists ⟨k, hk, by simp⟩
  rw [List.findIdx_append, if_pos hlt]

theorem dedupe_first_occurrences_increase (all : List Posting) :
    List.Pairwise (fun a b => a < b)
      ((dedupe all).map fun k => all.findIdx (fun x => jobId x == jobId k)) := by
  induction all using List.reverseRecOn with
  | nil => simp [dedupe, dedupLoop]
  | append_singleton all j ih =>
    have hsub : ∀ k ∈ dedupe all, k ∈ all := fun k hk => (dedupLoop_sublist all []).subset hk
    have hmap : (dedupe all).map (fun k => (all ++ [j]).findIdx (fun x => jobId x == jobId k))
        = (dedupe all).map (fun k => all.findIdx (fun x => jobId x == jobId k)) :=
      List.map_congr_left (fun k hk => findIdx_append_of_mem all j k (hsub k hk))
    rw [dedupe_snoc]
    by_cases hj : jobId j ∈ all.map jobId
    · rw [if_pos hj, hmap]
      exact ih
    · rw [if_neg hj, List.map_append, hmap, List.pairwise_append]
      refine ⟨ih, by simp, ?_⟩
      intro a ha b hb
      obtain ⟨k, hk, rfl⟩ := List.mem_map.1 ha
      have hb2 : b = (all ++ [j]).findIdx (fun x => jobId x == jobId j) := by simpa using hb
      have hnone : ∀ x ∈ all, (jobId x == jobId j) = false := by
        intro x hx
        simp only [beq_eq_false_iff_ne, ne_eq]
        intro hxj
        exact hj (List.mem_map.2 ⟨x, hx, hxj⟩)
      have hlen : all.findIdx (fun x => jobId x == jobId j) = all.length :=
        List.findIdx_eq_length_of_false hnone
      have hba : b = all.length := by
        rw [hb2, List.findIdx_append, hlen, if_neg (Nat.lt_irrefl _)]
        simp [List.findIdx_cons]
      rw [hba]
      exact List.findIdx_lt_length_of_exists ⟨k, hsub k hk, by simp⟩

theorem jobId_of_link (j : Posting) (s : Str) (hl : j.link = .str s) (hs : s ≠ []) :
    jobId j = s := by
  cases s with
  | nil => exact absurd rfl hs
  | cons c t => simp [jobId, hl, strTruthy]

theorem jobId_of_no_link (j : Posting) (hl : j.link.truthy = false) :
    jobId j = j.title ++ "|".toList ++ j.company := by
  unfold jobId
  cases hlk : j.link with
  | undefined => rfl
  | null => rfl
  | str s =>
    rw [hlk] at hl
    simp only [JsVal.truthy] at hl
    simp only [hl, Bool.false_eq_true, if_false]

/-- C1: the identity of a posting is its link when that is a non-empty string
and otherwise title, "|" and company; `fetchAll` de-duplicates the concatenation
of the scrapers' outputs in declaration order; the de-duplicated array is an
order-preserving sub-list of the collected array, carries pairwise distinct
identities, has every identity of the collected array exactly once, holds for
each identity the first posting with that identity in the collected array, and
lists the kept postings by increasing position of the first occurrence of their
identity; a posting appended to the collected array is appended to the result
exactly when its identity has not occurred before. -/
theorem dedupe_keeps_first_occurrence (all : List Posting) :
    ((∀ (j : Posting) (s : Str), j.link = .str s → s ≠ [] → jobId j = s)
        ∧ (∀ j : Posting, j.link.truthy = false →
            jobId j = j.title ++ "|".toList ++ j.company))
      ∧ List.Sublist (dedupe all) all
      ∧ ((dedupe all).map jobId).Nodup
      ∧ (∀ j ∈ all, ((dedupe all).filter (fun k => decide (jobId k = jobId j))).length = 1)
      ∧ (∀ j ∈ all, (dedupe all).find? (fun k => jobId k == jobId j)
            = all.find? (fun k => jobId k == jobId j))
      ∧ List.Pairwise (fun a b => a < b)
          ((dedupe all).map fun k => all.findIdx (fun x => jobId x == jobId k))
      ∧ (dedupe [] = []
          ∧ ∀ j : Posting, dedupe (all ++ [j])
              = if jobId j ∈ all.map jobId then dedupe all else dedupe all ++ [j])
      ∧ (∀ p : Pages, fetchAll p = dedupe (collectAll p)
          ∧ collectAll p = scrapeIndeed p.indeed ++ scrapeNaukri p.naukri
              ++ scrapeCutshort p.cutshort ++ scrapeGlassdoor p.glassdoor
              ++ scrapeMonster p.monster ++ scrapeLinkedInSimple p.linkedin) := by
  refine ⟨⟨jobId_of_link, jobId_of_no_link⟩, dedupLoop_sublist all [], dedupLoop_nodup all [],
    ?_, ?_, dedupe_first_occurrences_increase all, ⟨rfl, dedupe_snoc all⟩,
    fun _ => ⟨rfl, rfl⟩⟩
  · intro j hj
    obtain ⟨k, hk, hkj⟩ := List.mem_map.1 (dedupLoop_covers all [] j hj (by simp))
    have h1 := filter_key_length_one jobId (dedupLoop all [] []) (dedupLoop_nodup all []) k hk
    rw [hkj] at h1
    exact h1
  · intro j _
    exact dedupLoop_find all [] (jobId j) (by simp)

/-- C1 at a concrete array: a posting, a second one with another link, and the
first posting again give the first and the second, in that order. -/
theorem dedupe_keeps_first_occurrence_witness :
    dedupe [reactJob, { reactJob with link := .str "https://cutshort.io/job/2".toList }, reactJob]
        = [reactJob, { reactJob with link := .str "https://cutshort.io/job/2".toList }]
      ∧ jobId reactJob = "https://in.indeed.com/viewjob?jk=1".toList
      ∧ jobId { reactJob with link := .null }
          = "React Developer|Acme".toList
      ∧ List.Pairwise (fun a b => a < b)
          ((dedupe [reactJob, { reactJob with link := .str "https://cutshort.io/job/2".toList },
              reactJob]).map fun k =>
            [reactJob, { reactJob with link := .str "https://cutshort.io/job/2".toList },
              reactJob].findIdx (fun x => jobId x == jobId k)) :=
  ⟨by decide,
    (dedupe_keeps_first_occurrence []).1.1 reactJob _ rfl (by decide),
    (dedupe_keeps_first_occurrence []).1.2 { reactJob with link := .null } rfl,
    (dedupe_keeps_first_occurrence
      [reactJob, { reactJob with link := .str "https://cutshort.io/job/2".toList },
        reactJob]).2.2.2.2.2.1⟩

/-! ## The ledger -/

theorem readLog_of_json (f : LogFile) (v : Json) (hc : f.content = some (.json v))
    (hr : f.readable = true) : readLog f = .ok v := by
  simp [readLog, readFileSync, hc, hr, jsonParse, bind, Except.bind]

theorem readLog_of_failure (f : LogFile)
    (h : f.content = none ∨ f.readable = false ∨ f.content = some .notJson) :
    readLog f = .ok (.array []) := by
  cases f with
  | mk c r w =>
    cases c with
    | none => rfl
    | some c =>
      cases r with
      | false => rfl
      | true =>
        cases c with
        | notJson => rfl
        | json v => simp at h

theorem readLog_total (f : LogFile) : ∃ v, readLog f = .ok v := by
  unfold readLog
  split
  · exact ⟨_, rfl⟩
  · exact ⟨_, rfl⟩

theorem writeLog_of_writable (f : LogFile) (list : List JsVal) (hw : f.writable = true) :
    writeLog f list
      = .ok { f with content := some (.json (.array ((arrayFromSet list).map jsonElem))) } := by
  simp [writeLog, writeFileSync, hw]

theorem writeLog_of_not_writable (f : LogFile) (list : List JsVal) (hw : f.writable = false) :
    writeLog f list = .error .writeFailed := by
  simp [writeLog, writeFileSync, hw]

theorem setAdd_of_mem (acc : List JsVal) (y : JsVal) (hy : y ∈ acc) : setAdd acc y = acc := by
  have hc : acc.contains y = true := by simpa using hy
  unfold setAdd
  rw [if_pos hc]

theorem setAdd_of_not_mem (acc : List JsVal) (y : JsVal) (hy : y ∉ acc) :
    setAdd acc y = acc ++ [y] := by
  have hc : ¬ (acc.contains y = true) := by simpa using hy
  unfold setAdd
  rw [if_neg hc]

theorem foldl_setAdd_mem (list acc : List JsVal) (x : JsVal) :
    x ∈ list.foldl setAdd acc ↔ x ∈ acc ∨ x ∈ list := by
  induction list generalizing acc with
  | nil => simp
  | cons y ys ih =>
    rw [List.foldl_cons, ih]
    by_cases hy : y ∈ acc
    · rw [setAdd_of_mem acc y hy, List.mem_cons]
      constructor
      · rintro (h | h)
        · exact Or.inl h
        · exact Or.inr (Or.inr h)
      · rintro (h | h | h)
        · exact Or.inl h
        · exact Or.inl (h ▸ hy)
        · exact Or.inr h
    · rw [setAdd_of_not_mem acc y hy, List.mem_append, List.mem_singleton, List.mem_cons]
      constructor
      · rintro ((h | h) | h)
        · exact Or.inl h
        · exact Or.inr (Or.inl h)
        · exact Or.inr (Or.inr h)
      · rintro (h | h | h)
        · exact Or.inl (Or.inl h)
        · exact Or.inl (Or.inr h)
        · exact Or.inr h

theorem foldl_setAdd_nodup (list acc : List JsVal) (h : acc.Nodup) :
    (list.foldl setAdd acc).Nodup := by
  induction list generalizing acc with
  | nil => simpa using h
  | cons y ys ih =>
    rw [List.foldl_cons]
    apply ih
    by_cases hy : y ∈ acc
    · rw [setAdd_of_mem acc y hy]
      exact h
    · rw [setAdd_of_not_mem acc y hy]
      refine List.Nodup.append h (List.nodup_singleton y) ?_
      intro a ha hb
      rw [List.mem_singleton] at hb
      exact hy (hb ▸ ha)

theorem mem_arrayFromSet (list : List JsVal) (x : JsVal) : x ∈ arrayFromSet list ↔ x ∈ list := by
  unfold arrayFromSet
  rw [foldl_setAdd_mem]
  simp

theorem arrayFromSet_nodup (list : List JsVal) : (arrayFromSet list).Nodup :=
  foldl_setAdd_nodup list [] List.nodup_nil

theorem jsonElem_of_defined (x : JsVal) (h : x ≠ .undefined) : jsonElem x = x := by
  cases x with
  | undefined => exact absurd rfl h
  | null => rfl
  | str s => rfl

theorem map_jsonElem_of_defined (l : List JsVal) (h : ∀ x ∈ l, x ≠ .undefined) :
    l.map jsonElem = l := by
  induction l with
  | nil => rfl
  | cons y ys ih =>
    rw [List.map_cons, jsonElem_of_defined y (h y (List.mem_cons_self y ys)),
      ih (fun x hx => h x (List.mem_cons_of_mem y hx))]

/-- C5: on a ledger path that can be written and read, writing `sent.concat(ids)`
with `writeLog` succeeds and reading the file back with `readLog` gives a list
that holds every element of `ids` and of `sent`, nothing else, and nothing
twice; `sent` is a loaded ledger and `ids` a list of links, so neither holds
`undefined`. -/
theorem writeLog_readLog_merge (sent ids : List JsVal)
    (hdef : ∀ x ∈ sent ++ ids, x ≠ JsVal.undefined)
    (f : LogFile) (hw : f.writable = true) (hr : f.readable = true) :
    ∃ written r, writeLog f (sent ++ ids) = .ok written ∧ readLog written = .ok (.array r)
      ∧ (∀ x ∈ ids, x ∈ r) ∧ (∀ x ∈ sent, x ∈ r)
      ∧ (∀ x ∈ r, x ∈ sent ∨ x ∈ ids) ∧ r.Nodup := by
  have hmap : (arrayFromSet (sent ++ ids)).map jsonElem = arrayFromSet (sent ++ ids) :=
    map_jsonElem_of_defined _ (fun x hx => hdef x ((mem_arrayFromSet _ x).1 hx))
  refine ⟨_, arrayFromSet (sent ++ ids), writeLog_of_writable f _ hw, ?_, ?_, ?_, ?_,
    arrayFromSet_nodup _⟩
  · rw [hmap]
    exact readLog_of_json _ _ rfl hr
  · intro x hx
    exact (mem_arrayFromSet _ x).2 (List.mem_append_right _ hx)
  · intro x hx
    exact (mem_arrayFromSet _ x).2 (List.mem_append_left _ hx)
  · intro x hx
    exact List.mem_append.1 ((mem_arrayFromSet _ x).1 hx)

/-- C5 at a concrete ledger: a stored link and two new ones, one of them
already stored, written to a path with no file yet. -/
theorem writeLog_readLog_merge_witness :
    ∃ written r,
      writeLog noFile ([JsVal.str "a".toList] ++ [JsVal.str "b".toList, JsVal.str "a".toList])
        = .ok written
      ∧ readLog written = .ok (.array r)
      ∧ (∀ x ∈ [JsVal.str "b".toList, JsVal.str "a".toList], x ∈ r)
      ∧ (∀ x ∈ [JsVal.str "a".toList], x ∈ r)
      ∧ (∀ x ∈ r, x ∈ [JsVal.str "a".toList] ∨ x ∈ [JsVal.str "b".toList, JsVal.str "a".toList])
      ∧ r.Nodup :=
  writeLog_readLog_merge [JsVal.str "a".toList] [JsVal.str "b".toList, JsVal.str "a".toList]
    (by decide) noFile rfl rfl

/-! ## What the scrapers emit -/

theorem scrapeEl_emitted (mkLink : Option Str → JsVal) (source : Str) (el : RawEl) (j : Posting)
    (h : scrapeEl mkLink source el = some j) : emitted j = true := by
  unfold scrapeEl at h
  simp only at h
  split at h
  · rename_i hc
    injection h with h
    subst h
    simp only [Bool.and_eq_true] at hc
    simp only [emitted, hc.1.1.1, hc.1.1.2, hc.1.2, hc.2, Option.isNone_none, Bool.and_self]
  · exact absurd h (by simp)

theorem scraper_emitted (mkLink : Option Str → JsVal) (source : Str) (page : Option (List RawEl)) :
    ∀ j ∈ scraper mkLink source page, emitted j = true := by
  intro j hj
  cases page with
  | none => simp [scraper] at hj
  | some els =>
    simp only [scraper, List.mem_filterMap] at hj
    obtain ⟨el, _, hel⟩ := hj
    exact scrapeEl_emitted mkLink source el j hel

theorem collectAll_emitted (p : Pages) : ∀ j ∈ collectAll p, emitted j = true := by
  intro j hj
  simp only [collectAll, List.mem_append] at hj
  rcases hj with ((((h | h) | h) | h) | h) | h
  all_goals exact scraper_emitted _ _ _ j h

theorem fetchAll_emitted (p : Pages) : ∀ j ∈ fetchAll p, emitted j = true := fun j hj =>
  collectAll_emitted p j ((dedupLoop_sublist (collectAll p) []).subset hj)

theorem emitted_link_defined (j : Posting) (h : emitted j = true) : j.link ≠ JsVal.undefined := by
  intro hl
  simp [emitted, hl, JsVal.truthy] at h

/-! ## The run -/

theorem excludeSent_array (xs : List JsVal) (l : List Posting) :
    excludeSent (.array xs) l = .ok (l.filter fun j => !xs.contains j.link) := by
  induction l with
  | nil => rfl
  | cons j rest ih =>
    simp only [excludeSent, sentIncludes, ih, List.filter_cons]
    cases xs.contains j.link <;> rfl

theorem excludeSent_other_cons (j : Posting) (rest : List Posting) :
    excludeSent .other (j :: rest) = .error .typeError := rfl

theorem excludeSent_all_included (sent : Json) (l : List Posting)
    (h : ∀ j ∈ l, sentIncludes sent j.link = .ok true) : excludeSent sent l = .ok [] := by
  induction l with
  | nil => rfl
  | cons j rest ih =>
    simp only [excludeSent, h j (List.mem_cons_self j rest),
      ih (fun k hk => h k (List.mem_cons_of_mem j hk))]
    rfl

theorem mainAfterFilter_noNew (filtered : List Posting) (file : LogFile) (o : Outcomes)
    (sent : Json) (hs : readLog file = .ok sent) (he : excludeSent sent filtered = .ok []) :
    mainAfterFilter filtered file o = { calls := [], file := file, status := .noNewJobs } := by
  simp only [mainAfterFilter, hs, he]
  rfl

theorem mainAfterFilter_typeError (filtered : List Posting) (file : LogFile) (o : Outcomes)
    (sent : Json) (e : JsError) (hs : readLog file = .ok sent)
    (he : excludeSent sent filtered = .error e) :
    mainAfterFilter filtered file o = { calls := [], file := file, status := .rejected } := by
  simp only [mainAfterFilter, hs, he]

theorem mainAfterFilter_send (filtered : List Posting) (file : LogFile) (o : Outcomes)
    (sent : Json) (toSend : List Posting) (hs : readLog file = .ok sent)
    (he : excludeSent sent filtered = .ok toSend) (hne : toSend ≠ []) :
    mainAfterFilter filtered file o =
      (if !o.email then
        { calls := [(.email, toSend)], file := file, status := .rejected }
      else if !o.telegram then
        { calls := [(.email, toSend), (.telegram, toSend)], file := file, status := .rejected }
      else if !o.whatsapp then
        { calls := [(.email, toSend), (.telegram, toSend), (.whatsapp, toSend)], file := file,
          status := .rejected }
      else
        match writeLog file (concatLinks sent (toSend.map fun j => j.link)) with
        | .ok written =>
          { calls := [(.email, toSend), (.telegram, toSend), (.whatsapp, toSend)],
            file := written, status := .logged }
        | .error _ =>
          { calls := [(.email, toSend), (.telegram, toSend), (.whatsapp, toSend)],
            file := file, status := .rejected }) := by
  have h0 : ¬ toSend.length = 0 := by
    rw [List.length_eq_zero]
    exact hne
  simp only [mainAfterFilter, hs, he]
  rw [if_neg h0]

theorem sentIncludes_array_iff (xs : List JsVal) (link : JsVal) :
    sentIncludes (.array xs) link = .ok true ↔ link ∈ xs := by
  constructor
  · intro h
    have hc : xs.contains link = true := by
      simp only [sentIncludes] at h
      injection h
    exact List.mem_of_elem_eq_true hc
  · intro h
    have hc : xs.contains link = true := List.elem_eq_true_of_mem h
    simp only [sentIncludes, hc]

/-- C4: when the loaded ledger array already holds the link of every filtered
posting, the run calls no notifier, leaves the ledger file as it is, and ends at
the early return; the same holds for any loaded ledger value for which
`sent.includes(j.link)` is true at every filtered posting. -/
theorem ledger_covering_run_is_noop (filtered : List Posting) (file : LogFile) (o : Outcomes)
    (sent : List JsVal) (hs : readLog file = .ok (.array sent))
    (hall : ∀ j ∈ filtered, j.link ∈ sent) :
    ((mainAfterFilter filtered file o).calls = []
        ∧ (mainAfterFilter filtered file o).file = file
        ∧ (mainAfterFilter filtered file o).status = .noNewJobs)
      ∧ (∀ (file2 : LogFile) (sent2 : Json), readLog file2 = .ok sent2 →
          (∀ j ∈ filtered, sentIncludes sent2 j.link = .ok true) →
          (mainAfterFilter filtered file2 o).calls = []
            ∧ (mainAfterFilter filtered file2 o).file = file2
            ∧ (mainAfterFilter filtered file2 o).status = .noNewJobs) := by
  have gen : ∀ (file2 : LogFile) (sent2 : Json), readLog file2 = .ok sent2 →
      (∀ j ∈ filtered, sentIncludes sent2 j.link = .ok true) →
      (mainAfterFilter filtered file2 o).calls = []
        ∧ (mainAfterFilter filtered file2 o).file = file2
        ∧ (mainAfterFilter filtered file2 o).status = .noNewJobs := by
    intro file2 sent2 hs2 hall2
    rw [mainAfterFilter_noNew filtered file2 o sent2 hs2
      (excludeSent_all_included sent2 filtered hall2)]
    exact ⟨rfl, rfl, rfl⟩
  exact ⟨gen file (.array sent) hs
    (fun j hj => (sentIncludes_array_iff sent j.link).2 (hall j hj)), gen⟩

/-- C4 at a concrete run: the ledger array holds the link of the one filtered
posting. -/
theorem ledger_covering_run_is_noop_witness :
    (mainAfterFilter [reactJob] (fileWith (.json (.array [reactJob.link]))) allResolve).calls = []
      ∧ (mainAfterFilter [reactJob] (fileWith (.json (.array [reactJob.link]))) allResolve).file
          = fileWith (.json (.array [reactJob.link]))
      ∧ (mainAfterFilter [reactJob] (fileWith (.json (.array [reactJob.link]))) allResolve).status
          = .noNewJobs :=
  (ledger_covering_run_is_noop [reactJob] (fileWith (.json (.array [reactJob.link]))) allResolve
    [reactJob.link] rfl (by decide)).1

theorem rerun_after_completion (filtered : List Posting)
    (hl : ∀ j ∈ filtered, j.link ≠ JsVal.undefined) (file : LogFile) (o o2 : Outcomes)
    (hread : file.readable = true)
    (hstr : ∀ s, file.content ≠ some (.json (.string s)))
    (hdone : (mainAfterFilter filtered file o).status ≠ .rejected) :
    mainAfterFilter filtered (mainAfterFilter filtered file o).file o2
      = { calls := [], file := (mainAfterFilter filtered file o).file, status := .noNewJobs } := by
  obtain ⟨sent, hs⟩ := readLog_total file
  cases hex : excludeSent sent filtered with
  | error e =>
    rw [mainAfterFilter_typeError filtered file o sent e hs hex] at hdone
    exact absurd rfl hdone
  | ok toSend =>
    by_cases h : toSend = []
    · rw [h] at hex
      rw [mainAfterFilter_noNew filtered file o sent hs hex]
      exact mainAfterFilter_noNew filtered file o2 sent hs hex
    · rw [mainAfterFilter_send filtered file o sent toSend hs hex h] at hdone ⊢
      cases he : o.email with
      | false => simp [he] at hdone
      | true =>
        cases ht : o.telegram with
        | false => simp [he, ht] at hdone
        | true =>
          cases hw : o.whatsapp with
          | false => simp [he, ht, hw] at hdone
          | true =>
            simp only [he, ht, hw, Bool.not_true, Bool.false_eq_true, if_false] at hdone ⊢
            cases hwr : file.writable with
            | false =>
              rw [writeLog_of_not_writable file _ hwr] at hdone
              exact absurd rfl hdone
            | true =>
              rw [writeLog_of_writable file _ hwr]
              simp only
              have hxs : ∃ xs, sent = .array xs := by
                cases hsent : sent with
                | array xs => exact ⟨xs, rfl⟩
                | other =>
                  rw [hsent] at hex
                  cases filtered with
                  | nil =>
                    have : toSend = [] := by
                      simp only [excludeSent] at hex
                      injection hex with hex
                      exact hex.symm
                    exact absurd this h
                  | cons j rest => rw [excludeSent_other_cons] at hex; exact absurd hex (by simp)
                | string str =>
                  exfalso
                  rw [hsent] at hs
                  cases hc : file.content with
                  | none =>
                    rw [readLog_of_failure file (Or.inl hc)] at hs
                    exact absurd hs (by simp)
                  | some c =>
                    cases c with
                    | notJson =>
                      rw [readLog_of_failure file (Or.inr (Or.inr hc))] at hs
                      exact absurd hs (by simp)
                    | json v =>
                      rw [readLog_of_json file v hc hread] at hs
                      injection hs with hs
                      rw [hs] at hc
                      exact hstr str hc
              obtain ⟨xs, rfl⟩ := hxs
              rw [excludeSent_array] at hex
              injection hex with hex
              have hnew : excludeSent (.array ((arrayFromSet (concatLinks (.array xs)
                  (toSend.map fun j => j.link))).map jsonElem)) filtered = .ok [] := by
                apply excludeSent_all_included
                intro j hj
                have hmem : j.link ∈ (arrayFromSet (concatLinks (.array xs)
                    (toSend.map fun j => j.link))).map jsonElem := by
                  rw [List.mem_map]
                  refine ⟨j.link, ?_, jsonElem_of_defined _ (hl j hj)⟩
                  rw [mem_arrayFromSet]
                  show j.link ∈ xs ++ toSend.map fun j => j.link
                  rw [List.mem_append]
                  by_cases hjs : j.link ∈ xs
                  · exact Or.inl hjs
                  · refine Or.inr (List.mem_map.2 ⟨j, ?_, rfl⟩)
                    rw [← hex, List.mem_filter]
                    exact ⟨hj, by simpa using hjs⟩
                have hc : List.contains ((arrayFromSet (concatLinks (.array xs)
                    (toSend.map fun j => j.link))).map jsonElem) j.link = true :=
                  List.elem_eq_true_of_mem hmem
                show Except.ok (List.contains _ j.link) = Except.ok true
                rw [hc]
              exact mainAfterFilter_noNew filtered _ o2 _ (readLog_of_json _ _ rfl hread) hnew

/-- C2, as stated, fails: with the ledger file holding the JSON string "seed",
a run with one new posting completes and writes the characters of the string and
of the link, and the second run calls the three notifiers again with the same
posting; likewise with a ledger file that can be written but not read. -/
theorem string_ledger_is_sent_twice :
    (mainRun onePage (fileWith (.json (.string "seed".toList))) allResolve).status = .logged
      ∧ (mainRun onePage
          (mainRun onePage (fileWith (.json (.string "seed".toList))) allResolve).file
          allResolve).calls
          = [(.email, [reactJob]), (.telegram, [reactJob]), (.whatsapp, [reactJob])]
      ∧ (mainRun onePage
          { content := some (.json (.array [])), readable := false, writable := true }
          allResolve).status = .logged
      ∧ (mainRun onePage
          (mainRun onePage
            { content := some (.json (.array [])), readable := false, writable := true }
            allResolve).file
          allResolve).calls
          = [(.email, [reactJob]), (.telegram, [reactJob]), (.whatsapp, [reactJob])] := by
  decide

/-- C2, amended: for a ledger file that can be read and does not hold a JSON
string, when a run of `job-alert.js` does not end in a rejection (it reaches the
early return or completes the ledger write), a second run over the same pages
that reads the ledger file the first run left calls no notifier, whatever the
notifiers would do, and leaves that file as it is. -/
theorem second_run_sends_nothing (p : Pages) (file : LogFile) (o o2 : Outcomes)
    (hread : file.readable = true)
    (hstr : ∀ s, file.content ≠ some (.json (.string s)))
    (hdone : (mainRun p file o).status ≠ .rejected) :
    (mainRun p (mainRun p file o).file o2).calls = []
      ∧ (mainRun p (mainRun p file o).file o2).status = .noNewJobs
      ∧ (mainRun p (mainRun p file o).file o2).file = (mainRun p file o).file := by
  have hl : ∀ j ∈ filterJobs (fetchAll p), j.link ≠ JsVal.undefined := fun j hj =>
    emitted_link_defined j (fetchAll_emitted p j (List.mem_of_mem_filter hj))
  have h := rerun_after_completion (filterJobs (fetchAll p)) hl file o o2 hread hstr hdone
  unfold mainRun at hdone ⊢
  rw [h]
  exact ⟨rfl, rfl, rfl⟩

/-- C2, amended, at a concrete run: one new posting, no ledger file yet, every
notifier resolves. -/
theorem second_run_sends_nothing_witness :
    (mainRun onePage noFile allResolve).status = .logged
      ∧ (mainRun onePage (mainRun onePage noFile allResolve).file allResolve).calls = []
      ∧ (mainRun onePage (mainRun onePage noFile allResolve).file allResolve).status
          = .noNewJobs
      ∧ (mainRun onePage (mainRun onePage noFile allResolve).file allResolve).file
          = (mainRun onePage noFile allResolve).file :=
  ⟨by decide, second_run_sends_nothing onePage noFile allResolve allResolve rfl
    (fun _ h => by cases h) (by decide)⟩

/-- C3, as stated, fails: with one new posting, `sendEmail` rejecting and the
other two notifiers ready to resolve, only `sendEmail` is called, the ledger
file is not written, and the run ends rejected. -/
theorem email_rejection_ends_run :
    (mainAfterFilter [reactJob] noFile ⟨false, true, true⟩).calls = [(.email, [reactJob])]
      ∧ (mainAfterFilter [reactJob] noFile ⟨false, true, true⟩).file = noFile
      ∧ (mainAfterFilter [reactJob] noFile ⟨false, true, true⟩).status = .rejected := by
  decide

/-- C3, amended: with a non-empty list of new postings the notifiers are called
in the order email, telegram, whatsapp, each with that list, up to and including
the first one that rejects; the ledger write is reached exactly when all three
resolve, the run ends with the ledger written exactly when moreover the file
can be written, and otherwise the file is left as it is and the run ends
rejected. -/
theorem dispatch_stops_at_first_rejection (filtered : List Posting) (file : LogFile)
    (o : Outcomes) (sent : Json) (toSend : List Posting) (hs : readLog file = .ok sent)
    (he : excludeSent sent filtered = .ok toSend) (hne : toSend ≠ []) :
    (mainAfterFilter filtered file o).calls.map Prod.fst
        = (if !o.email then [.email]
           else if !o.telegram then [.email, .telegram]
           else [.email, .telegram, .whatsapp])
      ∧ (∀ c ∈ (mainAfterFilter filtered file o).calls, c.2 = toSend)
      ∧ ((mainAfterFilter filtered file o).status = .logged
          ↔ (o.email = true ∧ o.telegram = true ∧ o.whatsapp = true ∧ file.writable = true))
      ∧ ((mainAfterFilter filtered file o).status = .logged →
          writeLog file (concatLinks sent (toSend.map fun j => j.link))
            = .ok (mainAfterFilter filtered file o).file)
      ∧ ((mainAfterFilter filtered file o).status ≠ .logged →
          (mainAfterFilter filtered file o).file = file
            ∧ (mainAfterFilter filtered file o).status = .rejected) := by
  rw [mainAfterFilter_send filtered file o sent toSend hs he hne]
  cases hw : file.writable with
  | false =>
    rw [writeLog_of_not_writable file _ hw]
    cases o.email <;> cases o.telegram <;> cases o.whatsapp <;> simp
  | true =>
    rw [writeLog_of_writable file _ hw]
    cases o.email <;> cases o.telegram <;> cases o.whatsapp <;> simp

/-- C3, amended, at concrete runs: `sendTelegram` rejects after `sendEmail`
resolved; and all three resolve but the ledger file cannot be written. -/
theorem dispatch_stops_at_first_rejection_witness :
    ((mainAfterFilter [reactJob] noFile ⟨true, false, true⟩).calls.map Prod.fst
        = [.email, .telegram]
      ∧ (mainAfterFilter [reactJob] noFile ⟨true, false, true⟩).file = noFile
      ∧ (mainAfterFilter [reactJob] noFile ⟨true, false, true⟩).status = .rejected)
    ∧ ((mainAfterFilter [reactJob] { content := none, readable := true, writable := false }
          allResolve).calls.map Prod.fst = [.email, .telegram, .whatsapp]
      ∧ (mainAfterFilter [reactJob] { content := none, readable := true, writable := false }
          allResolve).status = .rejected) :=
  have h := dispatch_stops_at_first_rejection [reactJob] noFile ⟨true, false, true⟩ (.array [])
    [reactJob] rfl rfl (by decide)
  have g := dispatch_stops_at_first_rejection [reactJob]
    { content := none, readable := true, writable := false } allResolve (.array [])
    [reactJob] rfl rfl (by decide)
  ⟨⟨h.1, (h.2.2.2.2 (by decide)).1, (h.2.2.2.2 (by decide)).2⟩,
    ⟨g.1, (g.2.2.2.2 (by decide)).2⟩⟩

/-- C6, as stated, fails: a ledger file that exists but cannot be read, and one
whose text is not JSON, both load as the empty list, and with the text that is
not JSON the run goes on to notify and to overwrite the file. -/
theorem unreadable_ledger_reads_empty :
    readLog { content := some (.json (.array [reactJob.link])), readable := false,
              writable := false } = .ok (.array [])
      ∧ readLog (fileWith .notJson) = .ok (.array [])
      ∧ (mainAfterFilter [reactJob] (fileWith .notJson) allResolve).calls
          = [(.email, [reactJob]), (.telegram, [reactJob]), (.whatsapp, [reactJob])]
      ∧ (mainAfterFilter [reactJob] (fileWith .notJson) allResolve).status = .logged
      ∧ (mainAfterFilter [reactJob] (fileWith .notJson) allResolve).file
          = fileWith (.json (.array [reactJob.link])) := by
  refine ⟨rfl, rfl, ?_, ?_, ?_⟩ <;> decide

/-- C6, amended: `readLog` never raises; it returns the parsed value when the
file can be read and holds JSON, and the empty list when there is no file, the
file cannot be read, or its text is not JSON; in those three cases every
filtered posting counts as new, and the run calls the notifiers and ends as a
run on the same path holding the empty array would: it writes the ledger when
the file can be written, and ends rejected with the file as it was when the
write fails. -/
theorem readLog_never_raises (f : LogFile) :
    (∃ v, readLog f = .ok v)
      ∧ (∀ v, f.content = some (.json v) → f.readable = true → readLog f = .ok v)
      ∧ ((f.content = none ∨ f.readable = false ∨ f.content = some .notJson) →
          readLog f = .ok (.array [])
            ∧ ∀ (filtered : List Posting) (o : Outcomes),
                excludeSent (.array []) filtered = .ok filtered
                  ∧ (mainAfterFilter filtered f o).calls
                      = (mainAfterFilter filtered
                          { f with content := some (.json (.array [])), readable := true } o).calls
                  ∧ (mainAfterFilter filtered f o).status
                      = (mainAfterFilter filtered
                          { f with content := some (.json (.array [])), readable := true }
                          o).status
                  ∧ ((mainAfterFilter filtered f o).status = .logged → f.writable = true)
                  ∧ ((mainAfterFilter filtered f o).status ≠ .logged →
                      (mainAfterFilter filtered f o).file = f)) := by
  refine ⟨readLog_total f, fun v hc hr => readLog_of_json f v hc hr, ?_⟩
  intro hf
  have hr : readLog f = .ok (.array []) := readLog_of_failure f hf
  refine ⟨hr, ?_⟩
  intro filtered o
  have hex : excludeSent (.array []) filtered = .ok filtered := by
    rw [excludeSent_array]
    simp
  refine ⟨hex, ?_⟩
  cases f with
  | mk c r w =>
    have hg : readLog { content := some (.json (.array [])), readable := true, writable := w }
        = .ok (.array []) := readLog_of_json _ _ rfl rfl
    cases filtered with
    | nil =>
      rw [mainAfterFilter_noNew [] _ o _ hr hex, mainAfterFilter_noNew [] _ o _ hg hex]
      refine ⟨rfl, rfl, ?_, fun _ => rfl⟩
      intro h
      cases h
    | cons j rest =>
      rw [mainAfterFilter_send (j :: rest) _ o _ _ hr hex (by simp),
        mainAfterFilter_send (j :: rest) _ o _ _ hg hex (by simp)]
      cases w with
      | false =>
        rw [writeLog_of_not_writable _ _ rfl, writeLog_of_not_writable _ _ rfl]
        cases o.email <;> cases o.telegram <;> cases o.whatsapp <;> simp
      | true =>
        rw [writeLog_of_writable _ _ rfl, writeLog_of_writable _ _ rfl]
        cases o.email <;> cases o.telegram <;> cases o.whatsapp <;> simp

/-! ## The filter -/

/-- C9: `filterJobs` is a function of its argument alone, its result is an
order-preserving sub-list of the input, every posting of the result is a posting
of the input, a posting of the input is in the result exactly when the callback
accepts it, and filtering the result again changes nothing. -/
theorem filterJobs_is_pure_filter (jobs : List Posting) :
    (∀ jobs2 : List Posting, jobs2 = jobs → filterJobs jobs2 = filterJobs jobs)
      ∧ List.Sublist (filterJobs jobs) jobs
      ∧ (∀ j ∈ filterJobs jobs, j ∈ jobs)
      ∧ (∀ j, j ∈ filterJobs jobs ↔ (j ∈ jobs ∧ keepJob MIN_EXPERIENCE_YEARS SALARY_MIN j = true))
      ∧ filterJobs (filterJobs jobs) = filterJobs jobs := by
  refine ⟨fun _ h => by rw [h], List.filter_sublist jobs, fun j hj => List.mem_of_mem_filter hj,
    fun j => List.mem_filter, ?_⟩
  unfold filterJobs
  rw [List.filter_filter]
  simp

/-! ## Keywords -/

theorem toLower_toLower (c : Char) : c.toLower.toLower = c.toLower := by
  by_cases h : 65 ≤ c.toNat ∧ c.toNat ≤ 90
  · have hc : c = Char.ofNat c.toNat := (Char.ofNat_toNat c).symm
    obtain ⟨h1, h2⟩ := h
    generalize c.toNat = n at hc h1 h2
    subst hc
    interval_cases n <;> rfl
  · have hid : c.toLower = c := by
      unfold Char.toLower
      simp only [ge_iff_le]
      rw [if_neg h]
    rw [hid, hid]

theorem toLowerCase_idem (s : Str) : toLowerCase (toLowerCase s) = toLowerCase s := by
  unfold toLowerCase
  rw [List.map_map]
  exact List.map_congr_left (fun c _ => toLower_toLower c)

theorem toLowerCase_append (a b : Str) :
    toLowerCase (a ++ b) = toLowerCase a ++ toLowerCase b := List.map_append _ a b

theorem includes_iff (t k : Str) : includes t k = true ↔ k <:+: t := by
  induction t with
  | nil =>
    simp only [includes, List.isPrefixOf_iff_prefix, List.prefix_nil, List.infix_nil]
  | cons c t ih =>
    simp only [includes, Bool.or_eq_true, List.isPrefixOf_iff_prefix, ih, List.infix_cons_iff]

theorem containsKeyword_iff (text : Str) :
    containsKeyword text = true
      ↔ text ≠ [] ∧ ∃ k ∈ KEYWORDS, toLowerCase k <:+: toLowerCase text := by
  unfold containsKeyword strTruthy
  cases text with
  | nil => simp
  | cons c t => simp [includes_iff]

theorem containsKeyword_lower_append (a b : Str) (h : containsKeyword a = true) :
    containsKeyword (toLowerCase (a ++ b)) = true := by
  rw [containsKeyword_iff] at h ⊢
  obtain ⟨hne, k, hk, hin⟩ := h
  refine ⟨?_, k, hk, ?_⟩
  · cases a with
    | nil => exact absurd rfl hne
    | cons c t => simp [toLowerCase]
  · rw [toLowerCase_idem, toLowerCase_append]
    exact hin.trans (List.prefix_append _ _).isInfix

theorem keepJob_of_emitted (minExp salaryMin : Nat) (j : Posting) (h : emitted j = true) :
    keepJob minExp salaryMin j = true := by
  simp only [emitted, Bool.and_eq_true, Option.isNone_iff_eq_none] at h
  obtain ⟨⟨⟨_, hexp⟩, hsal⟩, hkw⟩ := h
  have hbig : containsKeyword (toLowerCase
      (j.title ++ " ".toList ++ j.snippet ++ " ".toList ++ j.company)) = true := by
    have := containsKeyword_lower_append (j.title ++ " ".toList ++ j.snippet)
      (" ".toList ++ j.company) hkw
    simpa [List.append_assoc] using this
  simp only [keepJob, hbig, experienceRejects, salaryRejects, hexp, hsal, optTruthy,
    Bool.not_true, Bool.false_eq_true, if_false]

/-- C10: `filterJobs` returns a list of postings of the shape the scrapers push
unchanged: such a posting passes the keyword test of the filter callback, and
its experience and salary fields are absent, so neither of the two other tests
applies; every posting `fetchAll` returns has that shape, so the filter removes
nothing from the harvest. -/
theorem filterJobs_keeps_emitted (jobs : List Posting) (h : ∀ j ∈ jobs, emitted j = true) :
    filterJobs jobs = jobs
      ∧ (∀ j ∈ jobs, containsKeyword (toLowerCase
            (j.title ++ " ".toList ++ j.snippet ++ " ".toList ++ j.company)) = true
          ∧ optTruthy j.experience = false ∧ optTruthy j.salary = false
          ∧ experienceRejects MIN_EXPERIENCE_YEARS j = false
          ∧ salaryRejects SALARY_MIN j = false)
      ∧ (∀ p : Pages, (∀ j ∈ fetchAll p, emitted j = true)
          ∧ filterJobs (fetchAll p) = fetchAll p) := by
  have key : ∀ l : List Posting, (∀ j ∈ l, emitted j = true) → filterJobs l = l := by
    intro l hl
    unfold filterJobs
    rw [List.filter_eq_self]
    exact fun j hj => keepJob_of_emitted _ _ j (hl j hj)
  refine ⟨key jobs h, ?_, fun p => ⟨fetchAll_emitted p, key _ (fetchAll_emitted p)⟩⟩
  intro j hj
  have hem := h j hj
  simp only [emitted, Bool.and_eq_true, Option.isNone_iff_eq_none] at hem
  have hk := keepJob_of_emitted MIN_EXPERIENCE_YEARS SALARY_MIN j (h j hj)
  unfold keepJob at hk
  simp only at hk
  split at hk
  · exact absurd hk (by simp)
  · rename_i h1
    split at hk
    · exact absurd hk (by simp)
    · rename_i h2
      split at hk
      · exact absurd hk (by simp)
      · rename_i h3
        exact ⟨by simpa using h1, by rw [hem.1.1.2]; rfl, by rw [hem.1.2]; rfl,
          by simpa using h2, by simpa using h3⟩

/-- C10 at a concrete list: the posting `scrapeIndeed` pushes for the sample
page. -/
theorem filterJobs_keeps_emitted_witness : filterJobs [reactJob] = [reactJob] :=
  (filterJobs_keeps_emitted [reactJob] (by decide)).1

/-! ## The matcher -/

theorem mem_run_seq (a b : Re) (st st' : Str × List (Nat × Str)) :
    st' ∈ (Re.seq a b).run st ↔ ∃ m ∈ a.run st, st' ∈ b.run m := by
  simp only [Re.run, List.mem_flatMap]

theorem mem_run_opt_skip (r : Re) (st : Str × List (Nat × Str)) : st ∈ (Re.opt r).run st := by
  simp only [Re.run, List.mem_append, List.mem_singleton, or_true]

theorem mem_run_opt_take (r : Re) (st st' : Str × List (Nat × Str)) (h : st' ∈ r.run st) :
    st' ∈ (Re.opt r).run st := by
  simp only [Re.run, List.mem_append]
  exact Or.inl h

theorem mem_run_chr (p : Char → Bool) (c : Char) (t : Str) (cs : List (Nat × Str))
    (h : p c = true) : (t, cs) ∈ (Re.chr p).run (c :: t, cs) := by
  simp [Re.run, h]

theorem run_chr_of_not (p : Char → Bool) (c : Char) (t : Str) (cs : List (Nat × Str))
    (h : p c = false) : (Re.chr p).run (c :: t, cs) = [] := by
  simp [Re.run, h]

theorem run_chr_nil (p : Char → Bool) (cs : List (Nat × Str)) : (Re.chr p).run ([], cs) = [] := by
  simp [Re.run]

theorem mem_manyRun (p : Char → Bool) (ws u : Str) (h : ∀ c ∈ ws, p c = true) :
    u ∈ manyRun p (ws ++ u) := by
  induction ws with
  | nil =>
    cases u with
    | nil => simp [manyRun]
    | cons c t =>
      simp only [List.nil_append, manyRun]
      split <;> simp
  | cons w ws ih =>
    have hw : p w = true := h w (List.mem_cons_self w ws)
    simp only [List.cons_append, manyRun, hw, if_true, List.mem_append]
    exact Or.inl (ih (fun c hc => h c (List.mem_cons_of_mem w hc)))

theorem mem_run_many (p : Char → Bool) (ws u : Str) (cs : List (Nat × Str))
    (h : ∀ c ∈ ws, p c = true) : (u, cs) ∈ (Re.many p).run (ws ++ u, cs) := by
  simp only [Re.run, List.mem_map]
  exact ⟨u, mem_manyRun p ws u h, rfl⟩

theorem mem_run_many_zero (p : Char → Bool) (st : Str × List (Nat × Str)) :
    st ∈ (Re.many p).run st := mem_run_many p [] st.1 st.2 (by simp)

theorem manyRun_head (p : Char → Bool) (ds tail : Str) (hd : ∀ c ∈ ds, p c = true)
    (ht : ∀ c, tail.head? = some c → p c = false) :
    (manyRun p (ds ++ tail)).head? = some tail := by
  induction ds with
  | nil =>
    cases tail with
    | nil => simp [manyRun]
    | cons c t =>
      have hc : p c = false := ht c rfl
      simp [manyRun, hc]
  | cons d ds ih =>
    have hdd : p d = true := hd d (List.mem_cons_self d ds)
    have ih2 := ih (fun c hc => hd c (List.mem_cons_of_mem d hc))
    simp only [List.cons_append, manyRun, hdd, if_true]
    cases hm : manyRun p (ds ++ tail) with
    | nil => rw [hm] at ih2; simp at ih2
    | cons a l => rw [hm] at ih2; simpa using ih2

theorem run_caps_extend (r : Re) :
    ∀ st st' : Str × List (Nat × Str), st' ∈ r.run st → ∃ ext, st'.2 = st.2 ++ ext := by
  induction r with
  | chr p =>
    rintro ⟨s, cs⟩ st' h
    cases s with
    | nil => simp [Re.run] at h
    | cons c t =>
      simp only [Re.run] at h
      split at h
      · simp only [List.mem_singleton] at h
        exact ⟨[], by simp [h]⟩
      · simp at h
  | many p =>
    rintro ⟨s, cs⟩ st' h
    simp only [Re.run, List.mem_map] at h
    obtain ⟨t, _, rfl⟩ := h
    exact ⟨[], by simp⟩
  | opt r ih =>
    intro st st' h
    simp only [Re.run, List.mem_append, List.mem_singleton] at h
    rcases h with h | rfl
    · exact ih st st' h
    · exact ⟨[], by simp⟩
  | alt a b iha ihb =>
    intro st st' h
    simp only [Re.run, List.mem_append] at h
    rcases h with h | h
    · exact iha st st' h
    · exact ihb st st' h
  | seq a b iha ihb =>
    intro st st' h
    rw [mem_run_seq] at h
    obtain ⟨m, hm, hst⟩ := h
    obtain ⟨e1, he1⟩ := iha st m hm
    obtain ⟨e2, he2⟩ := ihb m st' hst
    exact ⟨e1 ++ e2, by rw [he2, he1, List.append_assoc]⟩
  | group i r ih =>
    rintro ⟨s, cs⟩ st' h
    simp only [Re.run, List.mem_map] at h
    obtain ⟨m, hm, rfl⟩ := h
    obtain ⟨e, he⟩ := ih (s, cs) m hm
    exact ⟨e ++ [(i, s.take (s.length - m.1.length))], by simp [he]⟩

theorem head?_flatMap_cons {α β : Type} (f : α → List β) (x : α) (xs : List α)
    (h : f x ≠ []) : ((x :: xs).flatMap f).head? = (f x).head? := by
  cases hx : f x with
  | nil => exact absurd hx h
  | cons y ys => simp [List.flatMap_cons, hx]

/-! ## Patterns that start with a group of digits -/

theorem isSpace_not_digit (c : Char) (h : isSpace c = true) : isDigit c = false := by
  simp only [isSpace, Bool.or_eq_true, beq_iff_eq, Bool.and_eq_true, decide_eq_true_eq] at h
  simp only [isDigit, Bool.and_eq_false_iff, decide_eq_false_iff_not]
  omega

theorem run_digits1_cons (d : Char) (t : Str) (cs : List (Nat × Str)) (hd : isDigit d = true) :
    digits1.run (d :: t, cs) = (manyRun isDigit t).map fun u => (u, cs) := by
  simp [digits1, Re.run, hd]

theorem run_digits1_of_not (c : Char) (t : Str) (cs : List (Nat × Str))
    (h : isDigit c = false) : digits1.run (c :: t, cs) = [] := by
  simp [digits1, Re.run, h]

theorem run_digits1_nil (cs : List (Nat × Str)) : digits1.run ([], cs) = [] := by
  simp [digits1, Re.run]

theorem run_group (i : Nat) (r : Re) (s : Str) (cs : List (Nat × Str)) :
    (Re.group i r).run (s, cs)
      = (r.run (s, cs)).map fun st => (st.1, st.2 ++ [(i, s.take (s.length - st.1.length))]) := by
  rw [Re.run]

theorem run_seq (a b : Re) (st : Str × List (Nat × Str)) :
    (Re.seq a b).run st = (a.run st).flatMap b.run := by
  rw [Re.run]

theorem run_group_digits1_head (i : Nat) (ds tail : Str) (cs : List (Nat × Str))
    (hne : ds ≠ []) (hd : ∀ c ∈ ds, isDigit c = true)
    (ht : ∀ c, tail.head? = some c → isDigit c = false) :
    ((Re.group i digits1).run (ds ++ tail, cs)).head? = some (tail, cs ++ [(i, ds)]) := by
  cases ds with
  | nil => exact absurd rfl hne
  | cons d ds =>
    have hdd : isDigit d = true := hd d (List.mem_cons_self d ds)
    have hm := manyRun_head isDigit ds tail (fun c hc => hd c (List.mem_cons_of_mem d hc)) ht
    rw [run_group, List.cons_append, run_digits1_cons d (ds ++ tail) cs hdd, List.map_map,
      List.head?_map, hm]
    have hlen : (d :: (ds ++ tail)).length - tail.length = (d :: ds).length := by
      simp only [List.length_cons, List.length_append]
      omega
    have htake : (d :: (ds ++ tail)).take ((d :: ds).length) = d :: ds := by
      rw [← List.cons_append]
      exact List.take_left' rfl
    simp only [Option.map_some', Function.comp, hlen, htake]

theorem run_digitFirst_of_not (i : Nat) (X : Re) (c : Char) (t : Str) (cs : List (Nat × Str))
    (h : isDigit c = false) : (Re.seq (.group i digits1) X).run (c :: t, cs) = [] := by
  rw [run_seq, run_group, run_digits1_of_not c t cs h]
  rfl

theorem run_digitFirst_nil (i : Nat) (X : Re) (cs : List (Nat × Str)) :
    (Re.seq (.group i digits1) X).run ([], cs) = [] := by
  rw [run_seq, run_group, run_digits1_nil]
  rfl

theorem exec_digitFirst_skip (i : Nat) (X : Re) (pre s : Str)
    (hpre : ∀ c ∈ pre, isDigit c = false) :
    (Re.seq (.group i digits1) X).exec (pre ++ s) = (Re.seq (.group i digits1) X).exec s := by
  induction pre with
  | nil => rfl
  | cons c pre ih =>
    have hc := hpre c (List.mem_cons_self c pre)
    rw [List.cons_append, Re.exec, run_digitFirst_of_not i X c (pre ++ s) [] hc]
    exact ih (fun c hc => hpre c (List.mem_cons_of_mem _ hc))

theorem exec_digitFirst_none (i : Nat) (X : Re) (s : Str) (h : ∀ c ∈ s, isDigit c = false) :
    (Re.seq (.group i digits1) X).exec s = none := by
  have h0 := exec_digitFirst_skip i X s [] h
  rw [List.append_nil] at h0
  rw [h0, Re.exec, run_digitFirst_nil]
  rfl

theorem exec_digitFirst_hit (i : Nat) (X : Re) (ds tail : Str)
    (hne : ds ≠ []) (hd : ∀ c ∈ ds, isDigit c = true)
    (ht : ∀ c, tail.head? = some c → isDigit c = false)
    (hX : ∃ st, st ∈ X.run (tail, [(i, ds)])) :
    ∃ m, (Re.seq (.group i digits1) X).exec (ds ++ tail) = some m ∧ capture m i = ds := by
  have hg := run_group_digits1_head i ds tail [] hne hd ht
  rw [List.nil_append] at hg
  obtain ⟨st0, hst0⟩ := hX
  have hXne : X.run (tail, [(i, ds)]) ≠ [] := List.ne_nil_of_mem hst0
  cases hG : (Re.group i digits1).run (ds ++ tail, []) with
  | nil => rw [hG] at hg; simp at hg
  | cons g G =>
    rw [hG] at hg
    simp only [List.head?_cons, Option.some.injEq] at hg
    subst hg
    have hhead : ((Re.seq (.group i digits1) X).run (ds ++ tail, [])).head?
        = (X.run (tail, [(i, ds)])).head? := by
      rw [run_seq, hG]
      exact head?_flatMap_cons _ _ _ hXne
    cases hR : X.run (tail, [(i, ds)]) with
    | nil => exact absurd hR hXne
    | cons st R =>
      obtain ⟨ext, hext⟩ := run_caps_extend X (tail, [(i, ds)]) st (by rw [hR]; simp)
      refine ⟨st.2, ?_, ?_⟩
      · cases ds with
        | nil => exact absurd rfl hne
        | cons d ds =>
          rw [List.cons_append, Re.exec]
          rw [List.cons_append] at hhead
          rw [hhead, hR]
          rfl
      · rw [hext]
        simp [capture, List.lookup]

/-! ## The experience pattern -/

theorem run_alt (a b : Re) (st : Str × List (Nat × Str)) :
    (Re.alt a b).run st = a.run st ++ b.run st := by
  rw [Re.run]

theorem mem_run_ci (l c : Char) (t : Str) (cs : List (Nat × Str)) (h : c.toLower = l) :
    (t, cs) ∈ (ci l).run (c :: t, cs) :=
  mem_run_chr _ c t cs (by simp [h])

theorem mem_run_lit (l : Char) (t : Str) (cs : List (Nat × Str)) :
    (t, cs) ∈ (lit l).run (l :: t, cs) :=
  mem_run_chr _ l t cs (by simp)

theorem yearsRe_matches (rest : Str) (cs : List (Nat × Str)) :
    (rest, cs) ∈ yearsRe.run ('y' :: 'e' :: 'a' :: 'r' :: rest, cs) := by
  unfold yearsRe
  exact (mem_run_seq _ _ _ _).2 ⟨_, mem_run_ci 'y' 'y' _ cs rfl,
    (mem_run_seq _ _ _ _).2 ⟨_, mem_run_ci 'e' 'e' _ cs rfl,
      (mem_run_seq _ _ _ _).2 ⟨_, mem_run_ci 'a' 'a' _ cs rfl,
        (mem_run_seq _ _ _ _).2 ⟨_, mem_run_ci 'r' 'r' _ cs rfl, mem_run_opt_skip _ _⟩⟩⟩⟩

theorem opt_plus_matches (plus u : Str) (cs : List (Nat × Str))
    (hplus : plus = [] ∨ plus = "+".toList) :
    (u, cs) ∈ (Re.opt (lit '+')).run (plus ++ u, cs) := by
  rcases hplus with rfl | rfl
  · exact mem_run_opt_skip _ _
  · exact mem_run_opt_take _ _ _ (mem_run_lit '+' u cs)

theorem opt_sep_matches (sep u : Str) (cs : List (Nat × Str))
    (hsep : sep = [] ∨ sep = "-".toList ∨ sep = " to ".toList) :
    (u, cs) ∈ (Re.opt (.alt (lit '-')
        (.seq (.chr isSpace) (.seq (ci 't') (.seq (ci 'o') (.chr isSpace)))))).run
      (sep ++ u, cs) := by
  rcases hsep with rfl | rfl | rfl
  · exact mem_run_opt_skip _ _
  · apply mem_run_opt_take
    rw [run_alt]
    exact List.mem_append_left _ (mem_run_lit '-' u cs)
  · apply mem_run_opt_take
    rw [run_alt]
    refine List.mem_append_right _ ?_
    exact (mem_run_seq _ _ _ _).2 ⟨_, mem_run_chr isSpace ' ' _ cs (by decide),
      (mem_run_seq _ _ _ _).2 ⟨_, mem_run_ci 't' 't' _ cs rfl,
        (mem_run_seq _ _ _ _).2 ⟨_, mem_run_ci 'o' 'o' _ cs rfl,
          mem_run_chr isSpace ' ' u cs (by decide)⟩⟩⟩

theorem opt_digits_matches (i : Nat) (ds2 u : Str) (cs : List (Nat × Str))
    (hd2 : ∀ c ∈ ds2, isDigit c = true) :
    ∃ cs', (u, cs') ∈ (Re.opt (.group i digits1)).run (ds2 ++ u, cs) := by
  cases ds2 with
  | nil => exact ⟨cs, mem_run_opt_skip _ _⟩
  | cons d ds =>
    have hdd : isDigit d = true := hd2 d (List.mem_cons_self d ds)
    have hmem : (u, cs) ∈ digits1.run (d :: ds ++ u, cs) := by
      rw [List.cons_append, run_digits1_cons d (ds ++ u) cs hdd, List.mem_map]
      exact ⟨u, mem_manyRun isDigit ds u (fun c hc => hd2 c (List.mem_cons_of_mem d hc)), rfl⟩
    refine ⟨cs ++ [(i, (d :: ds ++ u).take ((d :: ds ++ u).length - u.length))],
      mem_run_opt_take _ _ _ ?_⟩
    rw [run_group, List.mem_map]
    exact ⟨(u, cs), hmem, rfl⟩

theorem rangeTailRe_matches (plus ws1 sep ws2 ds2 ws3 rest : Str) (cs : List (Nat × Str))
    (hplus : plus = [] ∨ plus = "+".toList)
    (hws1 : ∀ c ∈ ws1, isSpace c = true)
    (hsep : sep = [] ∨ sep = "-".toList ∨ sep = " to ".toList)
    (hws2 : ∀ c ∈ ws2, isSpace c = true)
    (hd2 : ∀ c ∈ ds2, isDigit c = true)
    (hws3 : ∀ c ∈ ws3, isSpace c = true) :
    ∃ st, st ∈ rangeTailRe.run
      (plus ++ (ws1 ++ (sep ++ (ws2 ++ (ds2 ++ (ws3 ++ ("year".toList ++ rest)))))), cs) := by
  obtain ⟨cs', hcs'⟩ := opt_digits_matches 2 ds2 (ws3 ++ ("year".toList ++ rest)) cs hd2
  refine ⟨(rest, cs'), ?_⟩
  unfold rangeTailRe
  exact (mem_run_seq _ _ _ _).2 ⟨_, opt_plus_matches plus _ cs hplus,
    (mem_run_seq _ _ _ _).2 ⟨_, mem_run_many isSpace ws1 _ cs hws1,
      (mem_run_seq _ _ _ _).2 ⟨_, opt_sep_matches sep _ cs hsep,
        (mem_run_seq _ _ _ _).2 ⟨_, mem_run_many isSpace ws2 _ cs hws2,
          (mem_run_seq _ _ _ _).2 ⟨_, hcs',
            (mem_run_seq _ _ _ _).2 ⟨_, mem_run_many isSpace ws3 _ cs' hws3,
              yearsRe_matches rest cs'⟩⟩⟩⟩⟩⟩

theorem rangeTail_head_not_digit (plus ws1 sep ws2 ds2 ws3 rest : Str)
    (hplus : plus = [] ∨ plus = "+".toList)
    (hws1 : ∀ c ∈ ws1, isSpace c = true)
    (hsep : sep = [] ∨ sep = "-".toList ∨ sep = " to ".toList)
    (hws2 : ∀ c ∈ ws2, isSpace c = true)
    (hadj : plus ++ ws1 ++ sep ++ ws2 = [] → ds2 = [])
    (hws3 : ∀ c ∈ ws3, isSpace c = true) :
    ∀ c, (plus ++ (ws1 ++ (sep ++ (ws2 ++ (ds2 ++ (ws3 ++ ("year".toList ++ rest))))))).head?
      = some c → isDigit c = false := by
  have hfront : ∀ c ∈ plus ++ ws1 ++ sep ++ ws2, isDigit c = false := by
    intro c hc
    simp only [List.mem_append] at hc
    rcases hc with ((hc | hc) | hc) | hc
    · rcases hplus with rfl | rfl
      · simp at hc
      · have : c = '+' := by simpa using hc
        subst this
        decide
    · exact isSpace_not_digit c (hws1 c hc)
    · rcases hsep with rfl | rfl | rfl
      · simp at hc
      · have : c = '-' := by simpa using hc
        subst this
        decide
      · have : c = ' ' ∨ c = 't' ∨ c = 'o' := by
          simp only [String.toList, List.mem_cons, List.mem_singleton] at hc
          rcases hc with h | h | h | h | h
          · exact Or.inl h
          · exact Or.inr (Or.inl h)
          · exact Or.inr (Or.inr h)
          · exact Or.inl h
          · simp at h
        rcases this with rfl | rfl | rfl <;> decide
    · exact isSpace_not_digit c (hws2 c hc)
  intro c hc
  have hre : plus ++ (ws1 ++ (sep ++ (ws2 ++ (ds2 ++ (ws3 ++ ("year".toList ++ rest))))))
      = (plus ++ ws1 ++ sep ++ ws2) ++ (ds2 ++ (ws3 ++ ("year".toList ++ rest))) := by
    simp only [List.append_assoc]
  rw [hre] at hc
  cases hf : plus ++ ws1 ++ sep ++ ws2 with
  | cons a l =>
    rw [hf] at hc hfront
    simp only [List.cons_append, List.head?_cons, Option.some.injEq] at hc
    subst hc
    exact hfront a (List.mem_cons_self a l)
  | nil =>
    rw [hf, hadj hf, List.nil_append, List.nil_append] at hc
    cases ws3 with
    | cons a l =>
      simp only [List.cons_append, List.head?_cons, Option.some.injEq] at hc
      subst hc
      exact isSpace_not_digit a (hws3 a (List.mem_cons_self a l))
    | nil =>
      have : c = 'y' := by
        simp only [String.toList, List.nil_append, List.cons_append, List.head?_cons,
          Option.some.injEq] at hc
        exact hc.symm
      subst this
      decide

theorem rangeRe_exec_shape (pre ds plus ws1 sep ws2 ds2 ws3 rest : Str)
    (hpre : ∀ c ∈ pre, isDigit c = false)
    (hds : ds ≠ []) (hd : ∀ c ∈ ds, isDigit c = true)
    (hplus : plus = [] ∨ plus = "+".toList)
    (hws1 : ∀ c ∈ ws1, isSpace c = true)
    (hsep : sep = [] ∨ sep = "-".toList ∨ sep = " to ".toList)
    (hws2 : ∀ c ∈ ws2, isSpace c = true)
    (hd2 : ∀ c ∈ ds2, isDigit c = true)
    (hadj : plus ++ ws1 ++ sep ++ ws2 = [] → ds2 = [])
    (hws3 : ∀ c ∈ ws3, isSpace c = true) :
    ∃ m, rangeRe.exec (pre ++ (ds ++ (plus ++ (ws1 ++ (sep ++ (ws2 ++ (ds2 ++ (ws3 ++
        ("year".toList ++ rest))))))))) = some m ∧ capture m 1 = ds := by
  unfold rangeRe
  rw [exec_digitFirst_skip 1 rangeTailRe pre _ hpre]
  exact exec_digitFirst_hit 1 rangeTailRe ds _ hds hd
    (rangeTail_head_not_digit plus ws1 sep ws2 ds2 ws3 rest hplus hws1 hsep hws2 hadj hws3)
    (rangeTailRe_matches plus ws1 sep ws2 ds2 ws3 rest _ hplus hws1 hsep hws2 hd2 hws3)

theorem exec_nil_eq_none_of_run (r : Re) (h : r.run ([], []) = []) : r.exec [] = none := by
  rw [Re.exec, h]
  rfl

theorem exec_none_mono (r1 r2 : Re)
    (h : ∀ s, r1.run (s, []) = [] → r2.run (s, []) = []) :
    ∀ t, r1.exec t = none → r2.exec t = none := by
  intro t
  induction t with
  | nil =>
    intro h1
    rw [Re.exec] at h1 ⊢
    cases hr : r1.run ([], []) with
    | nil => rw [h [] hr]; rfl
    | cons a l => rw [hr] at h1; simp at h1
  | cons c t ih =>
    intro h1
    rw [Re.exec] at h1 ⊢
    cases hr : r1.run (c :: t, []) with
    | nil =>
      rw [hr] at h1
      rw [h (c :: t) hr]
      exact ih h1
    | cons a l => rw [hr] at h1; simp at h1

theorem singleRe_run_nil_of_rangeRe (s : Str) (h : rangeRe.run (s, []) = []) :
    singleRe.run (s, []) = [] := by
  by_contra hne
  obtain ⟨st, hst⟩ := List.exists_mem_of_ne_nil _ hne
  unfold singleRe singleTailRe at hst
  obtain ⟨g, hg, hst⟩ := (mem_run_seq _ _ _ _).1 hst
  obtain ⟨m, hm, hst⟩ := (mem_run_seq _ _ _ _).1 hst
  have hin : st ∈ rangeRe.run (s, []) := by
    unfold rangeRe rangeTailRe
    exact (mem_run_seq _ _ _ _).2 ⟨g, hg,
      (mem_run_seq _ _ _ _).2 ⟨g, mem_run_opt_skip _ _,
        (mem_run_seq _ _ _ _).2 ⟨m, hm,
          (mem_run_seq _ _ _ _).2 ⟨m, mem_run_opt_skip _ _,
            (mem_run_seq _ _ _ _).2 ⟨m, mem_run_many_zero _ _,
              (mem_run_seq _ _ _ _).2 ⟨m, mem_run_opt_skip _ _,
                (mem_run_seq _ _ _ _).2 ⟨m, mem_run_many_zero _ _, hst⟩⟩⟩⟩⟩⟩⟩
  rw [h] at hin
  simp at hin

theorem parseExperience_eq (t : Str) :
    parseExperience (some t) = (rangeRe.exec t).map fun m => parseInt (capture m 1) := by
  cases t with
  | nil =>
    have h : rangeRe.exec [] = none :=
      exec_nil_eq_none_of_run _ (by unfold rangeRe; exact run_digitFirst_nil 1 _ [])
    rw [h]
    rfl
  | cons c t =>
    unfold parseExperience
    simp only [optTruthy, strTruthy, List.isEmpty_cons, Bool.not_false, Bool.not_true,
      Bool.false_eq_true, if_false, Option.getD_some]
    cases hr : rangeRe.exec (c :: t) with
    | some m => rfl
    | none =>
      simp only [Option.map_none']
      rw [exec_none_mono rangeRe singleRe singleRe_run_nil_of_rangeRe (c :: t) hr]

theorem parseExperience_shape (pre ds plus ws1 sep ws2 ds2 ws3 rest : Str)
    (hpre : ∀ c ∈ pre, isDigit c = false)
    (hds : ds ≠ []) (hd : ∀ c ∈ ds, isDigit c = true)
    (hplus : plus = [] ∨ plus = "+".toList)
    (hws1 : ∀ c ∈ ws1, isSpace c = true)
    (hsep : sep = [] ∨ sep = "-".toList ∨ sep = " to ".toList)
    (hws2 : ∀ c ∈ ws2, isSpace c = true)
    (hd2 : ∀ c ∈ ds2, isDigit c = true)
    (hadj : plus ++ ws1 ++ sep ++ ws2 = [] → ds2 = [])
    (hws3 : ∀ c ∈ ws3, isSpace c = true) :
    parseExperience (some (pre ++ (ds ++ (plus ++ (ws1 ++ (sep ++ (ws2 ++ (ds2 ++ (ws3 ++
        ("year".toList ++ rest)))))))))) = some (parseInt ds) := by
  obtain ⟨m, hm, hcap⟩ := rangeRe_exec_shape pre ds plus ws1 sep ws2 ds2 ws3 rest hpre hds hd
    hplus hws1 hsep hws2 hd2 hadj hws3
  rw [parseExperience_eq, hm, Option.map_some', hcap]

theorem parseExperience_no_digit (t : Str) (h : ∀ c ∈ t, isDigit c = false) :
    parseExperience (some t) = none := by
  rw [parseExperience_eq]
  unfold rangeRe
  rw [exec_digitFirst_none 1 rangeTailRe t h]
  rfl

theorem experienceRejects_iff (minExp : Nat) (j : Posting) :
    experienceRejects minExp j = true
      ↔ ∃ t n, j.experience = some t ∧ t ≠ [] ∧ parseExperience (some t) = some n
          ∧ n.lt minExp = true := by
  unfold experienceRejects
  cases he : j.experience with
  | none => simp [optTruthy]
  | some t =>
    cases t with
    | nil => simp [optTruthy, strTruthy]
    | cons c t =>
      simp only [optTruthy, strTruthy, List.isEmpty_cons, Bool.not_false, if_true]
      cases hp : parseExperience (some (c :: t)) with
      | none => simp [hp]
      | some n =>
        simp only [decide_eq_true_eq]
        constructor
        · intro h
          exact ⟨c :: t, n, rfl, by simp, hp, h⟩
        · rintro ⟨t', n', ht', _, hp', hn'⟩
          injection ht' with ht'
          subst ht'
          rw [hp] at hp'
          injection hp' with hp'
          subst hp'
          exact hn'

theorem keepJob_eq (minExp salaryMin : Nat) (j : Posting) :
    keepJob minExp salaryMin j
      = (containsKeyword (toLowerCase
            (j.title ++ " ".toList ++ j.snippet ++ " ".toList ++ j.company))
          && !experienceRejects minExp j && !salaryRejects salaryMin j) := by
  unfold keepJob
  simp only
  cases containsKeyword (toLowerCase
      (j.title ++ " ".toList ++ j.snippet ++ " ".toList ++ j.company)) <;>
    cases experienceRejects minExp j <;> cases salaryRejects salaryMin j <;> rfl

/-! ## Numbers -/

theorem toNumber_of_lt (n : Nat) (h : n < 2 ^ 53) : toNumber n = .fin n := by
  unfold toNumber
  rw [if_pos h]

theorem log2_eq_of_bounds (n k : Nat) (h1 : 2 ^ k ≤ n) (h2 : n < 2 ^ (k + 1)) :
    Nat.log2 n = k := by
  have hn0 : n ≠ 0 := by
    intro h0
    rw [h0] at h1
    exact absurd h1 (Nat.not_le.2 (Nat.two_pow_pos k))
  have ha : k ≤ Nat.log2 n := (Nat.le_log2 hn0).2 h1
  have hb : Nat.log2 n < k + 1 := (Nat.log2_lt hn0).2 h2
  omega

theorem toNumber_tie_to_even : toNumber 9007199254740993 = .fin 9007199254740992 := by
  have hl : Nat.log2 9007199254740993 = 53 := log2_eq_of_bounds _ 53 (by norm_num) (by norm_num)
  have hl2 : Nat.log2 9007199254740992 = 53 := log2_eq_of_bounds _ 53 (by norm_num) (by norm_num)
  unfold toNumber
  simp only [hl]
  norm_num [hl2]

theorem toNumber_large (n : Nat) (h : 2 ^ 53 ≤ n) :
    toNumber n = .inf ∨ ∃ m, 2 ^ 53 ≤ m ∧ toNumber n = .fin m := by
  have hn0 : n ≠ 0 := by
    intro h0
    rw [h0] at h
    exact absurd h (by decide)
  have hlog : 53 ≤ Nat.log2 n := (Nat.le_log2 hn0).2 h
  have hpow : 2 ^ Nat.log2 n ≤ n := Nat.log2_self_le hn0
  have hsplit : 2 ^ Nat.log2 n = 2 ^ 52 * 2 ^ (Nat.log2 n - 52) := by
    rw [← Nat.pow_add]
    congr 1
    omega
  have hq : 2 ^ 52 ≤ n / 2 ^ (Nat.log2 n - 52) := by
    rw [Nat.le_div_iff_mul_le (Nat.two_pow_pos _)]
    rw [← hsplit]
    exact hpow
  have he : 2 ≤ 2 ^ (Nat.log2 n - 52) := by
    calc 2 = 2 ^ 1 := rfl
      _ ≤ 2 ^ (Nat.log2 n - 52) := Nat.pow_le_pow_right (by decide) (by omega)
  have hge : ∀ q', n / 2 ^ (Nat.log2 n - 52) ≤ q' → 2 ^ 53 ≤ q' * 2 ^ (Nat.log2 n - 52) := by
    intro q' hq'
    calc 2 ^ 53 = 2 ^ 52 * 2 := by norm_num
      _ ≤ q' * 2 ^ (Nat.log2 n - 52) := Nat.mul_le_mul (hq.trans hq') he
  unfold toNumber
  rw [if_neg (by omega)]
  simp only
  split
  · split
    · exact Or.inr ⟨_, hge _ (Nat.le_succ _), rfl⟩
    · exact Or.inl rfl
  · split
    · exact Or.inr ⟨_, hge _ (Nat.le_refl _), rfl⟩
    · exact Or.inl rfl

theorem toNumber_lt (n k : Nat) (hk : k ≤ 2 ^ 53) : (toNumber n).lt k = decide (n < k) := by
  by_cases h : n < 2 ^ 53
  · rw [toNumber_of_lt n h]
    rfl
  · have hn : 2 ^ 53 ≤ n := Nat.le_of_not_lt h
    have hf : decide (n < k) = false := decide_eq_false (by omega)
    rw [hf]
    rcases toNumber_large n hn with hinf | ⟨m, hm, hfin⟩
    · rw [hinf]
      rfl
    · rw [hfin]
      exact decide_eq_false (by omega)

theorem parseInt_lt (s : Str) (k : Nat) (hk : k ≤ 2 ^ 53) :
    (parseInt s).lt k = decide (digitsValue s < k) := toNumber_lt (digitsValue s) k hk

theorem parseInt_of_lt (s : Str) (h : digitsValue s < 2 ^ 53) :
    parseInt s = .fin (digitsValue s) := toNumber_of_lt (digitsValue s) h

theorem parseExperience_rounds :
    parseExperience (some "9007199254740993 years".toList) = some (.fin 9007199254740992) := by
  have h := parseExperience_shape [] "9007199254740993".toList [] [] [] [] [] " ".toList
    "s".toList (by decide) (by decide) (by decide) (by decide) (by decide) (by decide)
    (by decide) (by decide) (by decide) (by decide)
  have hv : parseInt "9007199254740993".toList = .fin 9007199254740992 := by
    have hd : digitsValue "9007199254740993".toList = 9007199254740993 := by decide
    unfold parseInt
    rw [hd]
    exact toNumber_tie_to_even
  rw [hv] at h
  exact h

/-- C7, as stated, fails: in "1-3 years" the first digits followed by an
optional "+" and the word are "3" (the spec's pattern gives 3), while
`parseExperience` returns 1, and `filterJobs` rejects the posting on it. -/
theorem range_text_parses_lower_bound :
    parseExperience (some "1-3 years".toList) = some (.fin 1)
      ∧ specParseExperience "1-3 years".toList = some (.fin 3)
      ∧ experienceRejects MIN_EXPERIENCE_YEARS (withExperience "1-3 years") = true
      ∧ filterJobs [withExperience "1-3 years"] = [] := by
  decide

/-- C7, amended: `parseExperience` returns what `parseInt` gives for the first
group of the leftmost match of its first pattern (digits, optional "+", blanks,
an optional "-" or " to ", blanks, optional further digits, blanks, then "year"
or "years"), and nothing when there is no such match; so when the first digits
of the text are followed by that tail it returns the Number of those digits (the
lower bound of a range), and it returns nothing for a text without a digit.
That Number is the integer the digits denote when it is below `2^53` and its
nearest double otherwise ("9007199254740993 years" gives 9007199254740992); the
comparison with a floor of at most `2^53` is the comparison of the integer.  The
filter callback rejects on experience exactly when the text is non-empty, a
number is parsed and it is below the floor. -/
theorem parseExperience_first_group :
    (parseExperience none = none
        ∧ ∀ t, parseExperience (some t)
            = (rangeRe.exec t).map fun m => parseInt (capture m 1))
      ∧ (∀ pre ds plus ws1 sep ws2 ds2 ws3 rest : Str,
          (∀ c ∈ pre, isDigit c = false) → ds ≠ [] → (∀ c ∈ ds, isDigit c = true) →
          (plus = [] ∨ plus = "+".toList) → (∀ c ∈ ws1, isSpace c = true) →
          (sep = [] ∨ sep = "-".toList ∨ sep = " to ".toList) →
          (∀ c ∈ ws2, isSpace c = true) → (∀ c ∈ ds2, isDigit c = true) →
          (plus ++ ws1 ++ sep ++ ws2 = [] → ds2 = []) → (∀ c ∈ ws3, isSpace c = true) →
          parseExperience (some (pre ++ (ds ++ (plus ++ (ws1 ++ (sep ++ (ws2 ++ (ds2 ++ (ws3 ++
            ("year".toList ++ rest)))))))))) = some (parseInt ds))
      ∧ ((∀ s, parseInt s = toNumber (digitsValue s))
          ∧ (∀ s, digitsValue s < 2 ^ 53 → parseInt s = .fin (digitsValue s))
          ∧ (∀ s k, k ≤ 2 ^ 53 → (parseInt s).lt k = decide (digitsValue s < k))
          ∧ parseExperience (some "9007199254740993 years".toList)
              = some (.fin 9007199254740992))
      ∧ (∀ t, (∀ c ∈ t, isDigit c = false) → parseExperience (some t) = none)
      ∧ (∀ (minExp : Nat) (j : Posting), experienceRejects minExp j = true
          ↔ ∃ t n, j.experience = some t ∧ t ≠ [] ∧ parseExperience (some t) = some n
              ∧ n.lt minExp = true)
      ∧ (∀ (minExp salaryMin : Nat) (j : Posting), keepJob minExp salaryMin j
          = (containsKeyword (toLowerCase
                (j.title ++ " ".toList ++ j.snippet ++ " ".toList ++ j.company))
              && !experienceRejects minExp j && !salaryRejects salaryMin j))
      ∧ parseExperience (some "3+ years".toList) = some (.fin 3)
      ∧ parseExperience (some "5 years".toList) = some (.fin 5)
      ∧ parseExperience (some "flexible".toList) = none
      ∧ experienceRejects MIN_EXPERIENCE_YEARS (withExperience "flexible") = false :=
  ⟨⟨rfl, parseExperience_eq⟩, parseExperience_shape,
    ⟨fun _ => rfl, parseInt_of_lt, parseInt_lt, parseExperience_rounds⟩,
    parseExperience_no_digit, experienceRejects_iff, keepJob_eq,
    by decide, by decide, by decide, by decide⟩

/-- C7, amended, at concrete texts: "Exp: 2-5 years" split into the parts of
the second statement, and the rejection test for "2-5 years" under a floor of
three years. -/
theorem parseExperience_first_group_witness :
    parseExperience (some ("Exp: ".toList ++ ("2".toList ++ ([] ++ ([] ++ ("-".toList ++
        ([] ++ ("5".toList ++ (" ".toList ++ ("year".toList ++ "s".toList))))))))))
        = some (parseInt "2".toList)
      ∧ parseInt "2".toList = .fin 2
      ∧ (experienceRejects 3 (withExperience "2-5 years") = true
          ↔ ∃ t n, (withExperience "2-5 years").experience = some t ∧ t ≠ []
              ∧ parseExperience (some t) = some n ∧ n.lt 3 = true) :=
  ⟨parseExperience_first_group.2.1 "Exp: ".toList "2".toList [] [] "-".toList [] "5".toList
      " ".toList "s".toList (by decide) (by decide) (by decide) (by decide) (by decide)
      (by decide) (by decide) (by decide) (by decide) (by decide),
    parseExperience_first_group.2.2.1.2.1 "2".toList (by decide),
    parseExperience_first_group.2.2.2.2.1 3 (withExperience "2-5 years")⟩

/-! ## The salary pattern -/

theorem run_seq_chr_cons (p : Char → Bool) (X : Re) (c : Char) (t : Str) (cs : List (Nat × Str))
    (h : p c = true) : (Re.seq (.chr p) X).run (c :: t, cs) = X.run (t, cs) := by
  rw [run_seq]
  have hc : (Re.chr p).run (c :: t, cs) = [(t, cs)] := by simp [Re.run, h]
  rw [hc]
  simp

theorem run_seq_chr_of_not (p : Char → Bool) (X : Re) (c : Char) (t : Str)
    (cs : List (Nat × Str)) (h : p c = false) : (Re.seq (.chr p) X).run (c :: t, cs) = [] := by
  rw [run_seq, run_chr_of_not p c t cs h]
  rfl

theorem run_seq_chr_nil (p : Char → Bool) (X : Re) (cs : List (Nat × Str)) :
    (Re.seq (.chr p) X).run ([], cs) = [] := by
  rw [run_seq, run_chr_nil]
  rfl

theorem run_salaryRe_of_not (s : Str) (cs : List (Nat × Str))
    (h : startsWith3Digits s = false) : salaryRe.run (s, cs) = [] := by
  unfold salaryRe
  rw [run_group]
  have hin : (Re.seq (.chr isDigit) (.seq (.chr isDigit) (.seq (.chr isDigit)
      (.many isDigit)))).run (s, cs) = [] := by
    cases s with
    | nil => exact run_seq_chr_nil _ _ _
    | cons a s =>
      cases ha : isDigit a with
      | false => exact run_seq_chr_of_not _ _ _ _ _ ha
      | true =>
        rw [run_seq_chr_cons _ _ _ _ _ ha]
        cases s with
        | nil => exact run_seq_chr_nil _ _ _
        | cons b s =>
          cases hb : isDigit b with
          | false => exact run_seq_chr_of_not _ _ _ _ _ hb
          | true =>
            rw [run_seq_chr_cons _ _ _ _ _ hb]
            cases s with
            | nil => exact run_seq_chr_nil _ _ _
            | cons c s =>
              cases hc : isDigit c with
              | false => exact run_seq_chr_of_not _ _ _ _ _ hc
              | true => simp [startsWith3Digits, ha, hb, hc] at h
  rw [hin]
  rfl

theorem run_salaryRe_head (ds tail : Str) (hlen : 3 ≤ ds.length)
    (hd : ∀ c ∈ ds, isDigit c = true)
    (ht : ∀ c, tail.head? = some c → isDigit c = false) :
    (salaryRe.run (ds ++ tail, [])).head? = some (tail, [(1, ds)]) := by
  match ds, hlen, hd with
  | a :: b :: c :: ds, _, hd =>
    have ha : isDigit a = true := hd a (by simp)
    have hb : isDigit b = true := hd b (by simp)
    have hc : isDigit c = true := hd c (by simp)
    have hm := manyRun_head isDigit ds tail (fun x hx => hd x (by simp [hx])) ht
    unfold salaryRe
    have hin : (Re.seq (.chr isDigit) (.seq (.chr isDigit) (.seq (.chr isDigit)
        (.many isDigit)))).run (a :: b :: c :: ds ++ tail, [])
        = (manyRun isDigit (ds ++ tail)).map fun t => (t, []) := by
      rw [List.cons_append, List.cons_append, List.cons_append,
        run_seq_chr_cons _ _ _ _ _ ha, run_seq_chr_cons _ _ _ _ _ hb,
        run_seq_chr_cons _ _ _ _ _ hc, Re.run]
    rw [run_group, hin, List.map_map, List.head?_map, hm]
    have hl : (a :: b :: c :: ds ++ tail).length - tail.length = (a :: b :: c :: ds).length := by
      simp only [List.length_cons, List.length_append]
      omega
    have htake : (a :: b :: c :: ds ++ tail).take ((a :: b :: c :: ds).length)
        = a :: b :: c :: ds := List.take_left' rfl
    simp only [Option.map_some', Function.comp, hl, htake, List.nil_append]

theorem exec_salaryRe_none (s : Str) (h : hasDigitRun3 s = false) : salaryRe.exec s = none := by
  induction s with
  | nil =>
    exact exec_nil_eq_none_of_run _ (run_salaryRe_of_not [] [] rfl)
  | cons a s ih =>
    simp only [hasDigitRun3, Bool.or_eq_false_iff] at h
    rw [Re.exec, run_salaryRe_of_not (a :: s) [] h.1]
    exact ih h.2

theorem startsWith3Digits_append (pre s : Str) (hne : pre ≠ [])
    (h3 : startsWith3Digits pre = false)
    (hlast : ∀ c, pre.getLast? = some c → isDigit c = false) :
    startsWith3Digits (pre ++ s) = false := by
  match pre, hne, h3, hlast with
  | [a], _, _, hlast =>
    have ha : isDigit a = false := hlast a rfl
    cases s with
    | nil => rfl
    | cons b s =>
      cases s with
      | nil => rfl
      | cons c s => simp [startsWith3Digits, ha]
  | [a, b], _, _, hlast =>
    have hb : isDigit b = false := hlast b rfl
    cases s with
    | nil => rfl
    | cons c s => simp [startsWith3Digits, hb]
  | a :: b :: c :: r, _, h3, _ =>
    simpa [startsWith3Digits] using h3

theorem exec_salaryRe_first (pre ds tail : Str) (hpre : hasDigitRun3 pre = false)
    (hlast : ∀ c, pre.getLast? = some c → isDigit c = false)
    (hlen : 3 ≤ ds.length) (hd : ∀ c ∈ ds, isDigit c = true)
    (ht : ∀ c, tail.head? = some c → isDigit c = false) :
    salaryRe.exec (pre ++ (ds ++ tail)) = some [(1, ds)] := by
  induction pre with
  | nil =>
    have hh := run_salaryRe_head ds tail hlen hd ht
    match ds, hlen with
    | a :: ds, _ =>
      rw [List.nil_append, List.cons_append, Re.exec]
      rw [List.cons_append] at hh
      rw [hh]
  | cons a pre ih =>
    simp only [hasDigitRun3, Bool.or_eq_false_iff] at hpre
    have h0 := startsWith3Digits_append (a :: pre) (ds ++ tail) (by simp) hpre.1 hlast
    rw [List.cons_append] at h0 ⊢
    rw [Re.exec, run_salaryRe_of_not _ [] h0]
    apply ih hpre.2
    intro c hc
    cases pre with
    | nil => simp at hc
    | cons b pre =>
      apply hlast c
      rw [List.getLast?_cons_cons]
      exact hc

theorem salaryMatch_some (t : Str) : salaryMatch (some t) = salaryRe.exec (stripSalary t) := by
  unfold salaryMatch
  cases t with
  | nil => rfl
  | cons c t => rfl

theorem salaryRejects_iff (salaryMin : Nat) (j : Posting) :
    salaryRejects salaryMin j = true
      ↔ ∃ t m, j.salary = some t ∧ t ≠ [] ∧ salaryMatch (some t) = some m
          ∧ (parseInt (capture m 1)).lt salaryMin = true := by
  unfold salaryRejects
  cases he : j.salary with
  | none => simp [optTruthy]
  | some t =>
    cases t with
    | nil => simp [optTruthy, strTruthy]
    | cons c t =>
      simp only [optTruthy, strTruthy, List.isEmpty_cons, Bool.not_false, if_true]
      cases hp : salaryMatch (some (c :: t)) with
      | none => simp [hp]
      | some m =>
        simp only
        constructor
        · intro h
          exact ⟨c :: t, m, rfl, by simp, hp, h⟩
        · rintro ⟨t', m', ht', _, hp', hn'⟩
          injection ht' with ht'
          subst ht'
          rw [hp] at hp'
          injection hp' with hp'
          subst hp'
          exact hn'

theorem JsNum.lt_zero (x : JsNum) : x.lt 0 = false := by
  cases x with
  | fin n => exact decide_eq_false (Nat.not_lt_zero n)
  | inf => rfl

theorem salaryRejects_zero (j : Posting) : salaryRejects 0 j = false := by
  cases h : salaryRejects 0 j with
  | false => rfl
  | true =>
    obtain ⟨_, m, _, _, _, hlt⟩ := (salaryRejects_iff 0 j).1 h
    rw [JsNum.lt_zero] at hlt
    exact absurd hlt (by decide)

/-- C8: for a job with a salary text, the filter callback removes every "₹"
and "," from the text and matches the first run of at least three digits: when
the stripped text is `pre ++ ds ++ tail` with no three digits in a row in `pre`,
`pre` not ending in a digit, `ds` at least three digits and `tail` not starting
with a digit, the match is `ds` and the job is rejected exactly when the Number
`parseInt` gives for `ds` is below the floor, which for a floor of at most
`2^53` is exactly when the integer of `ds` is below the floor; a text with no
three digits in a row after stripping gives no match and no rejection; in
general the job is rejected exactly when there is a match whose Number is below
the floor, and with the floor `SALARY_MIN` of the program never. -/
theorem salary_check_first_digit_run (salaryMin : Nat) (j : Posting) (t : Str)
    (ht : j.salary = some t) :
    (salaryMatch (some t) = salaryRe.exec (stripSalary t)
        ∧ (∀ c, c ∈ stripSalary t ↔ (c ∈ t ∧ c ≠ '₹' ∧ c ≠ ','))
        ∧ List.Sublist (stripSalary t) t)
      ∧ (∀ pre ds tail : Str, stripSalary t = pre ++ (ds ++ tail) →
          hasDigitRun3 pre = false → (∀ c, pre.getLast? = some c → isDigit c = false) →
          3 ≤ ds.length → (∀ c ∈ ds, isDigit c = true) →
          (∀ c, tail.head? = some c → isDigit c = false) →
          salaryMatch (some t) = some [(1, ds)]
            ∧ salaryRejects salaryMin j = (parseInt ds).lt salaryMin
            ∧ (salaryMin ≤ 2 ^ 53 →
                salaryRejects salaryMin j = decide (digitsValue ds < salaryMin))
            ∧ (digitsValue ds < 2 ^ 53 → parseInt ds = .fin (digitsValue ds)))
      ∧ (hasDigitRun3 (stripSalary t) = false →
          salaryMatch (some t) = none ∧ salaryRejects salaryMin j = false)
      ∧ (salaryRejects salaryMin j = true
          ↔ ∃ m, t ≠ [] ∧ salaryMatch (some t) = some m
              ∧ (parseInt (capture m 1)).lt salaryMin = true)
      ∧ salaryRejects SALARY_MIN j = false := by
  have hiff : salaryRejects salaryMin j = true
      ↔ ∃ m, t ≠ [] ∧ salaryMatch (some t) = some m
          ∧ (parseInt (capture m 1)).lt salaryMin = true := by
    rw [salaryRejects_iff]
    constructor
    · rintro ⟨t', m, ht', hne, hm, hlt⟩
      rw [ht] at ht'
      injection ht' with ht'
      subst ht'
      exact ⟨m, hne, hm, hlt⟩
    · rintro ⟨m, hne, hm, hlt⟩
      exact ⟨t, m, ht, hne, hm, hlt⟩
  refine ⟨⟨salaryMatch_some t, ?_, List.filter_sublist t⟩, ?_, ?_, hiff, salaryRejects_zero j⟩
  · intro c
    simp [stripSalary, List.mem_filter]
  · intro pre ds tail hs hpre hlast hlen hd htl
    have hm : salaryMatch (some t) = some [(1, ds)] := by
      rw [salaryMatch_some, hs]
      exact exec_salaryRe_first pre ds tail hpre hlast hlen hd htl
    have hne : t ≠ [] := by
      intro h0
      have hl : (stripSalary t).length = 0 := by rw [h0]; rfl
      rw [hs] at hl
      simp only [List.length_append] at hl
      omega
    have hcap : capture [(1, ds)] 1 = ds := by simp [capture, List.lookup]
    have hrej : salaryRejects salaryMin j = (parseInt ds).lt salaryMin := by
      cases hlt : (parseInt ds).lt salaryMin with
      | true => exact hiff.2 ⟨_, hne, hm, by rw [hcap]; exact hlt⟩
      | false =>
        cases hr : salaryRejects salaryMin j with
        | false => rfl
        | true =>
          obtain ⟨m, _, hm', hlt'⟩ := hiff.1 hr
          rw [hm] at hm'
          injection hm' with hm'
          subst hm'
          rw [hcap, hlt] at hlt'
          exact absurd hlt' (by decide)
    exact ⟨hm, hrej, fun hk => by rw [hrej, parseInt_lt ds salaryMin hk],
      parseInt_of_lt ds⟩
  · intro hno
    have hm : salaryMatch (some t) = none := by
      rw [salaryMatch_some]
      exact exec_salaryRe_none _ hno
    refine ⟨hm, ?_⟩
    cases hr : salaryRejects salaryMin j with
    | false => rfl
    | true =>
      obtain ⟨m, _, hm', _⟩ := hiff.1 hr
      rw [hm] at hm'
      exact absurd hm' (by simp)

/-- C8 at concrete texts: "₹45,000" strips to "45000", which parses to 45000
and is rejected under a floor of 50000; "competitive" has no match and is not
rejected. -/
theorem salary_check_first_digit_run_witness :
    stripSalary "₹45,000".toList = "45000".toList
      ∧ parseInt "45000".toList = .fin 45000
      ∧ (salaryMatch (some "₹45,000".toList) = some [(1, "45000".toList)]
          ∧ salaryRejects 50000 (withSalary "₹45,000")
              = decide (digitsValue "45000".toList < 50000))
      ∧ salaryRejects 50000 (withSalary "₹45,000") = true
      ∧ (salaryMatch (some "competitive".toList) = none
          ∧ salaryRejects 50000 (withSalary "competitive") = false) :=
  have h := (salary_check_first_digit_run 50000 (withSalary "₹45,000") "₹45,000".toList
    rfl).2.1 [] "45000".toList [] (by decide) (by decide) (by decide) (by decide) (by decide)
      (by decide)
  ⟨by decide, by decide, ⟨h.1, h.2.2.1 (by decide)⟩, (h.2.2.1 (by decide)).trans (by decide),
    (salary_check_first_digit_run 50000 (withSalary "competitive") "competitive".toList
      rfl).2.2.1 (by decide)⟩

end JobAlert
